import Mathlib

/-!
# Verification of the CircMiMi post-alignment consolidation pipeline

A shallow embedding of `circmimi/miranda.py` (classes `Miranda` and
`MirandaUtils`), together with proofs about the behaviour of the
consolidation pipeline: result parsing, redundancy filtering,
cross-boundary classification, alignment clustering, aggregation,
input splitting, and the `Miranda.run` dispatch.

Modelling conventions:
* pandas data frames become Lean lists of structure values; every stage
  returns a new list, mirroring the column-appending style of the source;
* a pandas left merge against a uniquely-keyed table becomes an
  association-list lookup producing an `Option` (NaN = `none`);
* comparisons against a possibly-NaN value follow IEEE semantics:
  any comparison with NaN is false (`optLe` / `optLt` below);
* Python floats are modelled as rationals (`ℚ`); the aggregation and
  sorting behaviour proved here uses only their linear order;
* a pandas operation that raises an exception is modelled by an
  `Option`-valued function returning `none`.
-/

set_option maxHeartbeats 1000000

namespace Circmimi

/-- Order-preserving deduplication keeping the first occurrence of each
element: the semantics of `pandas.Series.unique`. -/
def uniqFirstSeen {α : Type} [DecidableEq α] : List α → List α
  | [] => []
  | a :: rest => a :: (uniqFirstSeen rest).filter (fun x => decide (x ≠ a))

theorem mem_uniqFirstSeen {α : Type} [DecidableEq α] (l : List α) (a : α) :
    a ∈ uniqFirstSeen l ↔ a ∈ l := by
  induction l with
  | nil => simp [uniqFirstSeen]
  | cons b rest ih =>
    rw [uniqFirstSeen]
    by_cases hab : a = b
    · subst hab; simp
    · simp only [List.mem_cons, List.mem_filter, decide_eq_true_eq, ih]
      constructor
      · rintro (h | ⟨h, _⟩)
        · exact absurd h hab
        · exact Or.inr h
      · rintro (h | h)
        · exact absurd h hab
        · exact Or.inr ⟨h, hab⟩

theorem nodup_uniqFirstSeen {α : Type} [DecidableEq α] (l : List α) :
    (uniqFirstSeen l).Nodup := by
  induction l with
  | nil => simp [uniqFirstSeen]
  | cons b rest ih =>
    rw [uniqFirstSeen]
    refine List.nodup_cons.mpr ⟨?_, ih.filter _⟩
    simp

theorem toFinset_uniqFirstSeen {α : Type} [DecidableEq α] (l : List α) :
    (uniqFirstSeen l).toFinset = l.toFinset := by
  ext a
  simp [List.mem_toFinset, mem_uniqFirstSeen]

/-- The length of the deduplicated list is the number of distinct elements. -/
theorem length_uniqFirstSeen {α : Type} [DecidableEq α] (l : List α) :
    (uniqFirstSeen l).length = l.toFinset.card := by
  rw [← toFinset_uniqFirstSeen, List.toFinset_card_of_nodup (nodup_uniqFirstSeen l)]

/-! ## Data model of the consolidation pipeline

One structure per pipeline stage, each extending the previous one with the
column the stage appends (mirroring the data-frame columns of
`MirandaUtils`).  Only the columns the downstream stages read are kept. -/

/-- One parsed alignment hit (the columns of `Miranda.RESULT_TITLE` that the
consolidation stages read). -/
structure Hit where
  query_id : String
  reference_id : String
  score : ℚ
  ref_start : Int
  ref_end : Int
  aln_mirna : List Char
  aln_map : List Char
  aln_utr : List Char
deriving DecidableEq

/-- A hit after `MirandaUtils.append_exons_len`: the left merge against the
`exons_len_df` table adds a `total_len` column, `none` standing for the NaN
produced when `reference_id` is absent from the table. -/
structure LHit extends Hit where
  total_len : Option Int
deriving DecidableEq

/-- A hit after `MirandaUtils.append_cross_boundary` (adds the 0/1
`cross_boundary` column). -/
structure CHit extends LHit where
  cross_boundary : Nat
deriving DecidableEq

/-- A hit after `MirandaUtils.append_ev_id` (left merge against
`exons_ev_id_df`; `none` = NaN ev_id). -/
structure EHit extends CHit where
  ev_id : Option String
deriving DecidableEq

/-- A hit after `MirandaUtils.append_merged_aln` (adds the concatenated
alignment string column `aln`). -/
structure AHit extends EHit where
  aln : List Char
deriving DecidableEq

/-- A hit after `MirandaUtils.generate_aln_id` (adds the cluster id column
`aln_id`). -/
structure IHit extends AHit where
  aln_id : Nat
deriving DecidableEq

/-- One row of `MirandaUtils.get_grouped_results` output (columns
`ev_id, mirna, max_score, count, cross_boundary`). -/
structure SummaryRow where
  ev_id : String
  mirna : String
  max_score : ℚ
  count : Nat
  cross_boundary : Nat
deriving DecidableEq

/-- `x <= y` where `y` may be NaN: false on NaN, as in pandas. -/
def optLe (x : Int) (y : Option Int) : Bool :=
  match y with
  | none => false
  | some v => x ≤ v

/-- `x < y` where `x` may be NaN: false on NaN, as in pandas. -/
def optLt (x : Option Int) (y : Int) : Bool :=
  match x with
  | none => false
  | some v => v < y

/-- `MirandaUtils.append_exons_len`: left merge of the hit table with the
uniquely-keyed `exons_len_df` table on `reference_id = exons_id`. -/
def append_exons_len (exons_len : List (String × Int)) (hits : List Hit) :
    List LHit :=
  hits.map (fun h => { toHit := h, total_len := exons_len.lookup h.reference_id })

/-- The step-1 predicate of `MirandaUtils.remove_redundant_result`:
`ref_start <= total_len` (false when `total_len` is NaN). -/
def refStartLeTotalLen (r : LHit) : Bool :=
  optLe r.ref_start r.total_len

/-- `MirandaUtils._get_extended_ref_end`: `ref_end + total_len`
(NaN-propagating). -/
def get_extended_ref_end (a : LHit) : Option Int :=
  a.total_len.map (fun len => a.ref_end + len)

/-- Does the filtered table contain a row with the same `query_id` and
`reference_id` as `a` whose `ref_end` equals `a`'s extended ref end?
This is the inner merge of `remove_redundant_result`; a NaN extended end
matches nothing. -/
def hasExtendedPartner (filtered : List LHit) (a : LHit) : Bool :=
  match get_extended_ref_end a with
  | none => false
  | some e =>
      filtered.any (fun b =>
        b.query_id == a.query_id && b.reference_id == a.reference_id &&
          b.ref_end == e)

/-- `MirandaUtils.remove_redundant_result`.

Step 1 keeps the rows with `ref_start <= total_len`.  Step 2 computes, for
each kept row with `ref_start == 1`, its extended ref end
(`ref_end + total_len`) and inner-merges those rows against the whole
step-1 table on `(query_id, reference_id, ext_ref_end = ref_end)`; the
`index` column taken from the merge holds the indices of the *anchor*
(`ref_start == 1`) rows that found a partner, and exactly those rows are
dropped.

When the step-1 table has no `ref_start == 1` row, the
`.apply(..., axis=1)` over the empty selection returns the empty frame
with its original columns, so the subsequent merge on the then-missing
`ext_ref_end` column raises `KeyError`; this is modelled as `none`. -/
def remove_redundant_result (rows : List LHit) : Option (List LHit) :=
  if ((rows.filter refStartLeTotalLen).filter (fun r => r.ref_start == 1)).isEmpty then
    none
  else
    some ((rows.filter refStartLeTotalLen).filter (fun a =>
      !(a.ref_start == 1 &&
        hasExtendedPartner (rows.filter refStartLeTotalLen) a)))

/-- `MirandaUtils._is_cross_boundary`: 1 when
`ref_start <= total_len < ref_end` (comparisons with a NaN `total_len`
are false), else 0. -/
def is_cross_boundary (s : LHit) : Nat :=
  if optLe s.ref_start s.total_len && optLt s.total_len s.ref_end then 1 else 0

/-- `MirandaUtils.append_cross_boundary`: append the `cross_boundary`
column computed row-wise by `is_cross_boundary`. -/
def append_cross_boundary (rows : List LHit) : List CHit :=
  rows.map (fun r => { toLHit := r, cross_boundary := is_cross_boundary r })

/-- The sort key of `MirandaUtils.append_ev_id`:
`sort_values(['ev_id', 'query_id', 'score'], ascending=[True, True, False])`
with NaN `ev_id` placed last (pandas `na_position='last'`). -/
def evSortLeB (a b : EHit) : Bool :=
  match a.ev_id, b.ev_id with
  | none, none =>
      if a.query_id ≠ b.query_id then decide (a.query_id < b.query_id)
      else b.score ≤ a.score
  | none, some _ => false
  | some _, none => true
  | some x, some y =>
      if x ≠ y then decide (x < y)
      else if a.query_id ≠ b.query_id then decide (a.query_id < b.query_id)
      else b.score ≤ a.score

/-- `MirandaUtils.append_ev_id`: left merge with the uniquely-keyed
`exons_ev_id_df` table on `reference_id = exons_id` (missing key = NaN
= `none`), then sort by `(ev_id asc, query_id asc, score desc)`. -/
def append_ev_id (exons_ev : List (String × String)) (rows : List CHit) :
    List EHit :=
  List.insertionSort (fun a b => evSortLeB a b = true)
    (rows.map (fun r => { toCHit := r, ev_id := exons_ev.lookup r.reference_id }))

/-- The merged alignment signature
`aln = aln_mirna + aln_map + aln_utr` (string concatenation). -/
def merged_aln (r : EHit) : List Char :=
  r.aln_mirna ++ r.aln_map ++ r.aln_utr

/-- `MirandaUtils.append_merged_aln`: append the merged `aln` column. -/
def append_merged_aln (rows : List EHit) : List AHit :=
  rows.map (fun r => { toEHit := r, aln := merged_aln r })

/-- Position of the first occurrence of `a` in a list (the index column of
the `reset_index` numbering). -/
def idxOf {α : Type} [DecidableEq α] (a : α) : List α → Nat
  | [] => 0
  | b :: t => if b = a then 0 else idxOf a t + 1

/-- `MirandaUtils.generate_aln_id`: enumerate the distinct `aln` strings in
first-occurrence order (`pd.Series.unique` + `reset_index`), then left-merge
that numbering back onto the table, so each row's `aln_id` is the position
of its `aln` string in the first-seen-deduplicated list. -/
def generate_aln_id (rows : List AHit) : List IHit :=
  rows.map (fun r =>
    { toAHit := r
      aln_id := idxOf r.aln (uniqFirstSeen (rows.map (fun s => s.aln))) })

/-- Lexicographic order on the `(ev_id, query_id)` group keys: pandas
`groupby` sorts the group keys. -/
def keyLeB (a b : String × String) : Bool :=
  if a.1 ≠ b.1 then decide (a.1 < b.1) else decide (a.2 ≤ b.2)

/-- Maximum of the `score` column over a (nonempty) group, as computed by
the pandas `max` aggregation. -/
def maxScoreOf (g : List IHit) : ℚ :=
  match g with
  | [] => 0
  | r :: rs => rs.foldl (fun m x => max m x.score) r.score

/-- Maximum of the 0/1 `cross_boundary` column over a group (pandas `max`
aggregation). -/
def maxCrossOf (g : List IHit) : Nat :=
  g.foldl (fun m x => max m x.cross_boundary) 0

/-- The rows of a `groupby(['ev_id', 'query_id'])` group with key `k`. -/
def groupRows (rows : List IHit) (k : String × String) : List IHit :=
  rows.filter (fun r => r.ev_id == some k.1 && r.query_id == k.2)

/-- The group keys of `groupby(['ev_id', 'query_id'])`: the distinct
`(ev_id, query_id)` pairs of the rows whose `ev_id` is not NaN (pandas
drops groups with a NaN key), sorted as pandas sorts group keys. -/
def groupedKeys (rows : List IHit) : List (String × String) :=
  List.insertionSort (fun a b => keyLeB a b = true)
    (uniqFirstSeen (rows.filterMap (fun r => r.ev_id.map (fun e => (e, r.query_id)))))

/-- The aggregated row for one group: `score -> max`, `aln_id -> nunique`,
`cross_boundary -> max`, with `query_id` renamed to `mirna`, `score` to
`max_score` and `aln_id` to `count`. -/
def mkSummaryRow (rows : List IHit) (k : String × String) : SummaryRow :=
  { ev_id := k.1
    mirna := k.2
    max_score := maxScoreOf (groupRows rows k)
    count := (uniqFirstSeen ((groupRows rows k).map (fun r => r.aln_id))).length
    cross_boundary := maxCrossOf (groupRows rows k) }

/-- `MirandaUtils.get_grouped_results`: one aggregated row per group key. -/
def get_grouped_results (rows : List IHit) : List SummaryRow :=
  (groupedKeys rows).map (mkSummaryRow rows)

/-- Modelled from the spec: the consolidation data flow of §2 (the driver
that chains the `MirandaUtils` stages lives in `circmimi/circmimi.py`,
which is not under `src/`): hit table → RedundancyFilter (after joining
TranscriptLength) → BoundaryClassifier → EventMapping join →
AlignmentClusterer → Aggregator.  `none` models the run aborting with the
exception propagated out of `remove_redundant_result`. -/
def pipeline (exons_len : List (String × Int)) (exons_ev : List (String × String))
    (hits : List Hit) : Option (List SummaryRow) :=
  (remove_redundant_result (append_exons_len exons_len hits)).map
    (fun filtered =>
      get_grouped_results (generate_aln_id (append_merged_aln
        (append_ev_id exons_ev (append_cross_boundary filtered)))))

/-! ## ResultParser (`Miranda._get_value`, `Miranda.parse_result`,
`get_binding_sites`)

Raw aligner output is modelled as a list of lines (each a `List Char`
without the newline).  The pattern `^//hit_info\t(.*)` with `re.M`
matches exactly the lines starting with the marker `//hit_info` followed
by a tab, capturing the rest of the line. -/

/-- A line of text. -/
abbrev Line := List Char

/-- `str.split(sep)` for a single-character separator, Python semantics
(always at least one field; empty fields preserved). -/
def splitOnChar (c : Char) : Line → List Line
  | [] => [[]]
  | x :: xs =>
      if x = c then [] :: splitOnChar c xs
      else
        match splitOnChar c xs with
        | [] => [[x]]
        | p :: ps => (x :: p) :: ps

/-- `sep.join(parts)` for a single-character separator. -/
def joinSep (c : Char) : List Line → Line
  | [] => []
  | [p] => p
  | p :: q :: ps => p ++ c :: joinSep c (q :: ps)

theorem splitOnChar_ne_nil (c : Char) (l : Line) : splitOnChar c l ≠ [] := by
  cases l with
  | nil => simp [splitOnChar]
  | cons x xs =>
    rw [splitOnChar]
    split
    · simp
    · split <;> simp

theorem splitOnChar_of_no_sep (c : Char) (l : Line) (h : c ∉ l) :
    splitOnChar c l = [l] := by
  induction l with
  | nil => rfl
  | cons x xs ih =>
    rw [splitOnChar, if_neg (by simp at h; exact fun hx => h.1 hx.symm)]
    rw [ih (by simp at h; exact h.2)]

theorem splitOnChar_append_sep (c : Char) (a rest : Line) (ha : c ∉ a) :
    splitOnChar c (a ++ c :: rest) = a :: splitOnChar c rest := by
  induction a with
  | nil => simp [splitOnChar]
  | cons x xs ih =>
    simp only [List.mem_cons, not_or] at ha
    rw [List.cons_append, splitOnChar, if_neg (fun hx => ha.1 hx.symm)]
    rw [ih ha.2]

/-- Splitting is a left inverse of joining on separator-free parts. -/
theorem splitOnChar_joinSep (c : Char) (parts : List Line)
    (hne : parts ≠ []) (hsep : ∀ p ∈ parts, c ∉ p) :
    splitOnChar c (joinSep c parts) = parts := by
  induction parts with
  | nil => exact absurd rfl hne
  | cons p ps ih =>
    cases ps with
    | nil =>
      rw [joinSep]
      exact splitOnChar_of_no_sep c p (hsep p (by simp))
    | cons q qs =>
      rw [joinSep, splitOnChar_append_sep c p _ (hsep p (by simp))]
      rw [ih (by simp) (fun x hx => hsep x (List.mem_cons_of_mem p hx))]

/-- The result-line marker of the regex `^//hit_info\t(.*)`. -/
def marker : Line := "//hit_info\t".toList

/-- `Miranda._get_value`: `[kv.split('=')[1] for kv in res_line.split('\t')]`.
`none` models the `IndexError` raised when some field has no `=`. -/
def get_value (res_line : Line) : Option (List Line) :=
  (splitOnChar '\t' res_line).mapM (fun kv => (splitOnChar '=' kv)[1]?)

/-- The captured groups of the result-line regex: the tail of every line
starting with the marker, in input order. -/
def markerLines (raw : List Line) : List Line :=
  raw.filterMap (fun l =>
    if marker.isPrefixOf l then some (l.drop marker.length) else none)

/-- `Miranda.parse_result` as consumed by `get_binding_sites`: the value
lists of all marker lines, in input order; `none` models the `IndexError`
escaping the generator on a malformed marker line. -/
def parse_result (raw : List Line) : Option (List (List Line)) :=
  (markerLines raw).mapM get_value

/-- `Miranda.RESULT_TITLE`: the 14 field names, in declared order. -/
def RESULT_TITLE : List Line :=
  ["query_id", "reference_id", "score", "energy", "query_start",
   "query_end", "ref_start", "ref_end", "aln_length", "identity",
   "similarity", "aln_mirna", "aln_map", "aln_utr"].map String.toList

/-- A well-formed result line built from the 14 declared `key=value`
fields. -/
def mkResultLine (vs : List Line) : Line :=
  marker ++ joinSep '\t' (List.zipWith (fun k v => k ++ '=' :: v) RESULT_TITLE vs)

/-! ### Numeric field conversion (`get_binding_sites` / `astype`)

Decimal integer and decimal-fraction literals as printed by the aligner
and converted by `astype({'score': 'float', ..., 'ref_start': 'int', ...})`.
Floats are modelled exactly as decimal literals, so "equal within
floating-point tolerance" is established in the strongest form (exact
recovery of the literal). -/

/-- The character of a decimal digit. -/
def digitChar (d : Nat) : Char := Char.ofNat (48 + d)

/-- Decimal digit value of a character, if any. -/
def digitOf (c : Char) : Option Nat :=
  if 48 ≤ c.toNat ∧ c.toNat ≤ 57 then some (c.toNat - 48) else none

/-- Decimal digits, most significant first, with structural fuel (any
fuel above the digit count gives the digits of `n`). -/
def printNatAux : Nat → Nat → Line
  | 0, _ => []
  | fuel + 1, n =>
      if n < 10 then [digitChar n]
      else printNatAux fuel (n / 10) ++ [digitChar (n % 10)]

/-- Decimal digits of a natural number, most significant first. -/
def printNat (n : Nat) : Line := printNatAux (n + 1) n

/-- Accumulating decimal parser: `acc` then the digits of `l`. -/
def parseNatFrom (acc : Nat) : Line → Option Nat
  | [] => some acc
  | c :: cs => (digitOf c).bind (fun d => parseNatFrom (acc * 10 + d) cs)

/-- Parse a nonempty all-digit string as a natural number (the behaviour
of Python `int`/`float` on the integral part of a literal). -/
def parseNat : Line → Option Nat
  | [] => none
  | c :: cs => parseNatFrom 0 (c :: cs)

/-- Digits of `n` left-padded with zeros to width `w`. -/
def printNatPad (w n : Nat) : Line :=
  List.replicate (w - (printNat n).length) '0' ++ printNat n

/-- Signed decimal integer literal. -/
def printInt (i : Int) : Line :=
  if i < 0 then '-' :: printNat i.natAbs else printNat i.toNat

/-- Parse a signed decimal integer literal (`astype('int')`). -/
def parseInt : Line → Option Int
  | [] => none
  | c :: cs =>
      if c = '-' then (parseNat cs).map (fun n => -(Int.ofNat n))
      else (parseNat (c :: cs)).map (fun n => Int.ofNat n)

/-- An exact decimal literal: sign, integral part, and `places` fractional
digits with value `fpart` (a float field as printed by the aligner). -/
structure Dec where
  neg : Bool
  ipart : Nat
  fpart : Nat
  places : Nat
deriving DecidableEq

/-- Well-formed decimal literal: the fractional value fits in its digit
count, and an integral literal has no hidden fraction. -/
def WFDec (d : Dec) : Prop :=
  d.fpart < 10 ^ d.places ∧ (d.places = 0 → d.fpart = 0)

/-- Print a decimal literal. -/
def printDec (d : Dec) : Line :=
  (if d.neg then ['-'] else []) ++ printNat d.ipart ++
    (if d.places = 0 then [] else '.' :: printNatPad d.places d.fpart)

/-- Parse an unsigned decimal literal into
(integral part, fractional value, fractional digit count). -/
def parseDecAbs (l : Line) : Option (Nat × Nat × Nat) :=
  match splitOnChar '.' l with
  | [i] => (parseNat i).map (fun n => (n, 0, 0))
  | [i, f] =>
      match parseNat i, parseNat f with
      | some ni, some nf => some (ni, nf, f.length)
      | _, _ => none
  | _ => none

/-- Parse a signed decimal literal (`astype('float')`, modelled exactly). -/
def parseDec : Line → Option Dec
  | [] => none
  | c :: cs =>
      if c = '-' then (parseDecAbs cs).map (fun p => ⟨true, p.1, p.2.1, p.2.2⟩)
      else (parseDecAbs (c :: cs)).map (fun p => ⟨false, p.1, p.2.1, p.2.2⟩)

/-- A fully typed hit record: the 14 fields of `Miranda.RESULT_TITLE`
with the numeric kinds declared in `get_binding_sites`. -/
structure ParsedHit where
  query_id : Line
  reference_id : Line
  score : Dec
  energy : Dec
  query_start : Int
  query_end : Int
  ref_start : Int
  ref_end : Int
  aln_length : Int
  identity : Dec
  similarity : Dec
  aln_mirna : Line
  aln_map : Line
  aln_utr : Line
deriving DecidableEq

/-- The 14 field values of a typed hit, rendered as strings in declared
order. -/
def hitValues (h : ParsedHit) : List Line :=
  [h.query_id, h.reference_id, printDec h.score, printDec h.energy,
   printInt h.query_start, printInt h.query_end, printInt h.ref_start,
   printInt h.ref_end, printInt h.aln_length, printDec h.identity,
   printDec h.similarity, h.aln_mirna, h.aln_map, h.aln_utr]

/-- The typed conversion of `get_binding_sites` (`astype`): parse the
numeric fields with their declared kinds; `none` models the fatal
conversion error on a malformed field or a wrong field count. -/
def toParsedHit (vs : List Line) : Option ParsedHit :=
  match vs with
  | [q, r, sc, en, qs, qe, rs, re, al, idt, sim, m1, m2, m3] =>
      match parseDec sc, parseDec en, parseInt qs, parseInt qe, parseInt rs,
          parseInt re, parseInt al, parseDec idt, parseDec sim with
      | some vsc, some ven, some vqs, some vqe, some vrs, some vre,
          some val, some vidt, some vsim =>
          some ⟨q, r, vsc, ven, vqs, vqe, vrs, vre, val, vidt, vsim, m1, m2, m3⟩
      | _, _, _, _, _, _, _, _, _ => none
  | _ => none

/-- The result line printed for a typed hit. -/
def mkHitLine (h : ParsedHit) : Line := mkResultLine (hitValues h)

/-- A field value that does not break the `key=value`/tab framing. -/
def noTabEq (l : Line) : Prop := '\t' ∉ l ∧ '=' ∉ l

/-- A typed hit whose string fields are framing-safe and whose decimal
fields are well-formed: the hypotheses of the round trip. -/
def WFParsedHit (h : ParsedHit) : Prop :=
  noTabEq h.query_id ∧ noTabEq h.reference_id ∧ noTabEq h.aln_mirna ∧
    noTabEq h.aln_map ∧ noTabEq h.aln_utr ∧ WFDec h.score ∧ WFDec h.energy ∧
    WFDec h.identity ∧ WFDec h.similarity

instance (l : Line) : Decidable (noTabEq l) := by
  unfold noTabEq
  infer_instance

instance (d : Dec) : Decidable (WFDec d) := by
  unfold WFDec
  infer_instance

instance (h : ParsedHit) : Decidable (WFParsedHit h) := by
  unfold WFParsedHit
  infer_instance

/-! ## Input splitting (`Miranda._split_file`) and dispatch (`Miranda.run`) -/

/-- `line.startswith('>')`. -/
def startsWithGt (l : Line) : Bool := l.head? == some '>'

/-- The line loop of `Miranda._split_file`: `tmp_files_iter = cycle(tmp_files)`
holds the index of the currently open partition (`none` before the first
header line); a header line advances the cycling iterator, and every line is
written to the current partition.  `none` models the `NameError` raised
when a line precedes the first fasta header (`tmp_f` unbound). -/
def splitGo (num : Nat) : List Line → Option Nat → List (List Line) →
    Option (List (List Line))
  | [], _, parts => some parts
  | l :: rest, cur, parts =>
      let cur' := if startsWithGt l then
          some (match cur with | none => 0 | some c => (c + 1) % num)
        else cur
      match cur' with
      | none => none
      | some c => splitGo num rest (some c) (parts.set c (parts.getD c [] ++ [l]))

/-- `Miranda._split_file` with `num` partitions, on the lines of the input
sequence file (partition `i` holds the contents written to
`seq_file.part{i+1}.fa`).  `num = 0` models the `StopIteration` of
`next(cycle([]))`. -/
def split_file (num : Nat) (lines : List Line) : Option (List (List Line)) :=
  if num = 0 then none
  else splitGo num lines none (List.replicate num [])

/-- A fasta record: a header line followed by non-header lines. -/
def WFRecord (r : List Line) : Prop :=
  ∃ h t, r = h :: t ∧ startsWithGt h = true ∧ ∀ l ∈ t, startsWithGt l = false

/-- Record-level restatement of the split loop: record number `i` (counting
from the value `i₀` passed at the top call) is appended wholly to partition
`i % num`. -/
def splitRecords (num : Nat) : Nat → List (List Line) → List (List Line) →
    List (List Line)
  | _, [], parts => parts
  | i, r :: rs, parts =>
      splitRecords num (i + 1) rs
        (parts.set (i % num) (parts.getD (i % num) [] ++ r))

/-- Written from the claim: partition `j` receives exactly the records whose
0-based index `i` satisfies `i % num = j`, concatenated in input order. -/
def specPartition (num j : Nat) : Nat → List (List Line) → List Line
  | _, [] => []
  | i, r :: rs =>
      (if i % num = j then r else []) ++ specPartition num j (i + 1) rs

/-- The observable outcome of one `Miranda.run` call: the returned value
(`none` = Python `None`), the number of external aligner processes
launched, and whether a temporary partition directory was created. -/
structure RunOutcome where
  result : Option (List Line)
  procsLaunched : Nat
  dirCreated : Bool
deriving DecidableEq

/-- `Miranda.run`: with `num_proc == 1`, one external invocation whose
standard output is returned; with `num_proc > 1`, the input is split into
`num_proc` partitions inside a temporary directory, one process runs per
partition, and the partition outputs are concatenated in partition order;
with any other `num_proc`, both branches are skipped and the method falls
off the end, returning Python `None`.  The external binary is abstracted
by the `aligner` function (same text via `-out` file or stdout). -/
def miranda_run (aligner : List Line → List Line) (seq_file : List Line)
    (num_proc : Int) : RunOutcome :=
  if num_proc = 1 then
    { result := some (aligner seq_file), procsLaunched := 1, dirCreated := false }
  else if 1 < num_proc then
    match split_file num_proc.toNat seq_file with
    | some parts =>
        { result := some ((parts.map aligner).flatten)
          procsLaunched := num_proc.toNat
          dirCreated := true }
    | none => { result := none, procsLaunched := 0, dirCreated := true }
  else
    { result := none, procsLaunched := 0, dirCreated := false }

/-! ## Concrete example inputs -/

/-- A hit with `ref_start == 1` (an anchor) whose extended ref end
`20 + 100 = 120` has a matching partner in `exExtendedHit`. -/
def exAnchorHit : LHit :=
  { query_id := "q", reference_id := "r", score := 0, ref_start := 1,
    ref_end := 20, aln_mirna := [], aln_map := [], aln_utr := [],
    total_len := some 100 }

/-- A cross-boundary hit whose `ref_end` equals the extended ref end of
`exAnchorHit`. -/
def exExtendedHit : LHit := { exAnchorHit with ref_start := 95, ref_end := 120 }

/-- A hit ending exactly at the transcript end. -/
def exBoundaryEnd : LHit := { exAnchorHit with ref_end := 100 }

/-- A hit straddling the transcript end by one base. -/
def exBoundaryCross : LHit := { exAnchorHit with ref_start := 100, ref_end := 101 }

/-- A transcript-length table covering `R` and `S` only. -/
def exLenTbl : List (String × Int) := [("R", 100), ("S", 50)]

/-- An event-mapping table covering `R` only. -/
def exEvTbl : List (String × String) := [("R", "E1")]

/-- A hit fully covered by both tables. -/
def exHitKept : Hit :=
  { query_id := "q", reference_id := "R", score := 140, ref_start := 1,
    ref_end := 20, aln_mirna := ['A'], aln_map := ['|'], aln_utr := ['U'] }

/-- A hit whose `reference_id` is absent from the length table. -/
def exHitNoLen : Hit := { exHitKept with reference_id := "X", aln_mirna := ['C'] }

/-- A hit whose `reference_id` is absent from the event table. -/
def exHitNoEv : Hit := { exHitKept with reference_id := "S", ref_end := 10, aln_map := [':'] }

/-- A clustering-stage hit with alignment triple `(AB, CD, EF)`. -/
def exClusterA : EHit :=
  { query_id := "qa", reference_id := "r", score := 1, ref_start := 1,
    ref_end := 2, aln_mirna := ['A', 'B'], aln_map := ['C', 'D'],
    aln_utr := ['E', 'F'], total_len := some 5, cross_boundary := 0,
    ev_id := some "E" }

/-- Same alignment triple as `exClusterA` but another query. -/
def exClusterB : EHit := { exClusterA with query_id := "qb" }

/-- An alignment triple differing from `exClusterA` in one character. -/
def exClusterC : EHit := { exClusterA with aln_utr := ['E', 'G'] }

/-- The rational 0.8 in normalized form (kernel-reducible, unlike the
division expression `8/10`). -/
def ratPoint8 : ℚ := ⟨4, 5, by norm_num, by norm_num⟩

/-- The rational 0.95 in normalized form. -/
def ratPoint95 : ℚ := ⟨19, 20, by norm_num, by norm_num⟩

/-- Aggregation example row (score 0.8, cluster 1, not cross-boundary). -/
def exGroupRow1 : IHit :=
  { query_id := "Q1", reference_id := "r", score := ratPoint8, ref_start := 1,
    ref_end := 2, aln_mirna := [], aln_map := [], aln_utr := [],
    total_len := some 5, cross_boundary := 0, ev_id := some "E1",
    aln := [], aln_id := 1 }

/-- Aggregation example row (score 0.95, cluster 2, cross-boundary). -/
def exGroupRow2 : IHit := { exGroupRow1 with score := ratPoint95, cross_boundary := 1, aln_id := 2 }

/-- Aggregation example row (score 0.95, cluster 2, not cross-boundary). -/
def exGroupRow3 : IHit := { exGroupRow1 with score := ratPoint95, aln_id := 2 }

/-- The summary row expected for the aggregation example. -/
def exSummaryRow : SummaryRow :=
  { ev_id := "E1", mirna := "Q1", max_score := ratPoint95, count := 2,
    cross_boundary := 1 }

/-- A typed hit used for the parse round trip. -/
def exParsedHit : ParsedHit :=
  { query_id := ['m', 'i', 'R'], reference_id := ['R', '1'],
    score := ⟨false, 140, 0, 0⟩, energy := ⟨true, 7, 2, 1⟩,
    query_start := 2, query_end := 21, ref_start := 1, ref_end := 20,
    aln_length := 19, identity := ⟨false, 84, 21, 2⟩,
    similarity := ⟨false, 89, 47, 2⟩, aln_mirna := ['A', 'C'],
    aln_map := ['|', ' '], aln_utr := ['U', 'G'] }

/-- A marker line whose single field has no `=`. -/
def exBadLine : Line := "//hit_info\tgarbage".toList

/-- Example fasta records. -/
def exRecords : List (List Line) :=
  [[">a".toList, "x1".toList, "x2".toList],
   [">b".toList, "y".toList],
   [">c".toList, "z".toList]]

/-! ## Theorems -/

theorem refStartLeTotalLen_iff (r : LHit) :
    refStartLeTotalLen r = true ↔ ∃ L, r.total_len = some L ∧ r.ref_start ≤ L := by
  cases h : r.total_len <;> simp [refStartLeTotalLen, optLe, h]

theorem hasExtendedPartner_iff (filtered : List LHit) (a : LHit) :
    hasExtendedPartner filtered a = true ↔
      ∃ L, a.total_len = some L ∧ ∃ b, b ∈ filtered ∧
        b.query_id = a.query_id ∧ b.reference_id = a.reference_id ∧
        b.ref_end = a.ref_end + L := by
  cases h : a.total_len with
  | none => simp [hasExtendedPartner, get_extended_ref_end, h]
  | some L =>
    have hunf : hasExtendedPartner filtered a = filtered.any (fun b =>
        b.query_id == a.query_id && b.reference_id == a.reference_id &&
          b.ref_end == a.ref_end + L) := by
      unfold hasExtendedPartner get_extended_ref_end
      rw [h]
      rfl
    rw [hunf, List.any_eq_true]
    simp only [Bool.and_eq_true, beq_iff_eq]
    constructor
    · rintro ⟨b, hb, ⟨h1, h2⟩, h3⟩
      exact ⟨L, rfl, b, hb, h1, h2, h3⟩
    · rintro ⟨L2, hL2, b, hb, h1, h2, h3⟩
      cases hL2
      exact ⟨b, hb, ⟨h1, h2⟩, h3⟩

theorem remove_redundant_result_none_iff (rows : List LHit) :
    remove_redundant_result rows = none ↔
      ∀ r ∈ rows, refStartLeTotalLen r = true → r.ref_start ≠ 1 := by
  unfold remove_redundant_result
  split
  next hemp =>
    rw [List.isEmpty_iff, List.filter_eq_nil_iff] at hemp
    simp only [true_iff]
    intro r hr hstep h1
    have := hemp r (List.mem_filter.mpr ⟨hr, hstep⟩)
    simp [h1] at this
  next hemp =>
    rw [List.isEmpty_iff, List.filter_eq_nil_iff] at hemp
    push_neg at hemp
    obtain ⟨r, hrF, hr1⟩ := hemp
    have hmem := List.mem_filter.mp hrF
    simp only [reduceCtorEq, false_iff, not_forall]
    refine ⟨r, hmem.1, hmem.2, ?_⟩
    simpa using hr1

theorem remove_redundant_result_some (rows out : List LHit)
    (h : remove_redundant_result rows = some out) :
    out = (rows.filter refStartLeTotalLen).filter (fun a =>
      !(a.ref_start == 1 &&
        hasExtendedPartner (rows.filter refStartLeTotalLen) a)) := by
  unfold remove_redundant_result at h
  split at h
  · exact absurd h (by simp)
  · exact (Option.some.injEq _ _ ▸ h).symm

/-- C10: `Miranda.run(seq_file, num_proc)` with any `num_proc <= 0` matches
neither the `num_proc == 1` branch nor the `num_proc > 1` branch, so it
returns Python `None`, launches no aligner process and creates no
partition directory. -/
theorem run_nonpositive_num_proc (aligner : List Line → List Line)
    (seq_file : List Line) (n : Int) (h : n ≤ 0) :
    miranda_run aligner seq_file n =
      { result := none, procsLaunched := 0, dirCreated := false } := by
  unfold miranda_run
  rw [if_neg (by omega), if_neg (by omega)]

/-- Witness for C10: a caller passing `num_proc = 0` gets `None`. -/
theorem run_nonpositive_num_proc_witness :
    miranda_run (fun l => l) [] 0 =
      { result := none, procsLaunched := 0, dirCreated := false } :=
  run_nonpositive_num_proc (fun l => l) [] 0 (by decide)

/-- C4: for a hit whose `total_len` is defined, `cross_boundary` is 1
exactly when `ref_start <= total_len` and `total_len < ref_end`; in
particular a hit ending exactly at `total_len` is not cross-boundary and
a hit covering `total_len` and `total_len + 1` is. -/
theorem cross_boundary_iff (r : LHit) (L : Int) (h : r.total_len = some L) :
    is_cross_boundary r = 1 ↔ (r.ref_start ≤ L ∧ L < r.ref_end) := by
  by_cases h1 : r.ref_start ≤ L <;> by_cases h2 : L < r.ref_end <;>
    simp [is_cross_boundary, optLe, optLt, h, h1, h2]

/-- Witness for C4: the two boundary cases
(`ref_start=1, ref_end=total_len=100` → 0;
`ref_start=100=total_len, ref_end=101` → 1). -/
theorem cross_boundary_iff_witness :
    (is_cross_boundary exBoundaryEnd = 1 ↔ ((1 : Int) ≤ 100 ∧ (100 : Int) < 100))
  ∧ (is_cross_boundary exBoundaryCross = 1 ↔ ((100 : Int) ≤ 100 ∧ (100 : Int) < 101))
  ∧ is_cross_boundary exBoundaryEnd = 0 ∧ is_cross_boundary exBoundaryCross = 1 :=
  ⟨cross_boundary_iff exBoundaryEnd 100 rfl,
   cross_boundary_iff exBoundaryCross 100 rfl, by decide, by decide⟩

/-- C1 (counterexample): the claim predicts that for anchor
`exAnchorHit` (`ref_start=1, ref_end=20, total_len=100`) the matching
extended hit `exExtendedHit` (`ref_end=120=20+100`) is removed and the
anchor kept, i.e. output `[exAnchorHit]`; the code instead drops the
anchor and keeps the extended hit.  Moreover on a table whose step-1
survivors contain no `ref_start == 1` row the function does not return a
filtered table at all (modelled `none`: the pandas merge raises
`KeyError`), while the claim predicts the unchanged table. -/
theorem remove_redundant_result_counterexample :
    remove_redundant_result [exAnchorHit, exExtendedHit] = some [exExtendedHit]
  ∧ remove_redundant_result [exAnchorHit, exExtendedHit] ≠ some [exAnchorHit]
  ∧ remove_redundant_result [exExtendedHit] = none := by
  refine ⟨by decide, by decide, by decide⟩

/-- C1 (amended): when at least one `ref_start == 1` row survives step 1,
`remove_redundant_result` returns the subsequence of its input (original
relative order) obtained by (1) removing every hit whose `ref_start`
exceeds (or has no) `total_len`, and then (2) removing every remaining
*anchor* hit `A` with `ref_start == 1` for which some remaining hit `B`
with the same `query_id` and `reference_id` has
`B.ref_end == A.ref_end + total_len`; hits matched as the extended
counterpart are kept, and no other rows are removed.  When no
`ref_start == 1` row survives step 1 the function raises instead
(modelled `none`). -/
theorem remove_redundant_result_characterization (rows : List LHit) :
    (remove_redundant_result rows = none ↔
      ∀ r ∈ rows, refStartLeTotalLen r = true → r.ref_start ≠ 1)
  ∧ ∀ out, remove_redundant_result rows = some out →
      out.Sublist rows ∧
      ∀ r, r ∈ out ↔
        r ∈ rows ∧ refStartLeTotalLen r = true ∧
          ¬(r.ref_start = 1 ∧ ∃ L, r.total_len = some L ∧
            ∃ b, b ∈ rows ∧ refStartLeTotalLen b = true ∧
              b.query_id = r.query_id ∧ b.reference_id = r.reference_id ∧
              b.ref_end = r.ref_end + L) := by
  refine ⟨remove_redundant_result_none_iff rows, fun out hout => ?_⟩
  have hshape := remove_redundant_result_some rows out hout
  subst hshape
  constructor
  · exact ((List.filter_sublist _).trans (List.filter_sublist _))
  · intro r
    rw [List.mem_filter, List.mem_filter]
    simp only [Bool.not_eq_eq_eq_not, Bool.not_true, Bool.and_eq_false_imp,
      beq_iff_eq]
    constructor
    · rintro ⟨⟨hmem, hstep⟩, hkeep⟩
      refine ⟨hmem, hstep, ?_⟩
      rintro ⟨h1, L, hL, b, hbmem, hbstep, hq, hrf, he⟩
      have := hkeep h1
      rw [← Bool.not_eq_true, hasExtendedPartner_iff] at this
      exact this ⟨L, hL, b, List.mem_filter.mpr ⟨hbmem, hbstep⟩, hq, hrf, he⟩
    · rintro ⟨hmem, hstep, hnot⟩
      refine ⟨⟨hmem, hstep⟩, fun h1 => ?_⟩
      rw [← Bool.not_eq_true, hasExtendedPartner_iff]
      rintro ⟨L, hL, b, hbF, hq, hrf, he⟩
      have hbm := List.mem_filter.mp hbF
      exact hnot ⟨h1, L, hL, b, hbm.1, hbm.2, hq, hrf, he⟩

/-- Witness for C1 (amended), instantiated on the concrete two-row table:
the output is a subsequence of the input. -/
theorem remove_redundant_result_characterization_witness :
    List.Sublist [exExtendedHit] [exAnchorHit, exExtendedHit] :=
  (((remove_redundant_result_characterization [exAnchorHit, exExtendedHit]).2
    [exExtendedHit] (by decide)).1)

/-- C2 (counterexample): `exAnchorHit` has `ref_start == 1` and survives
step 1, yet it is absent from the output: an anchor with a matching
extended counterpart is precisely what this filter removes. -/
theorem anchor_survival_counterexample :
    exAnchorHit.ref_start = 1
  ∧ refStartLeTotalLen exAnchorHit = true
  ∧ remove_redundant_result [exAnchorHit, exExtendedHit] = some [exExtendedHit]
  ∧ exAnchorHit ∉ [exExtendedHit] := by
  refine ⟨by decide, by decide, by decide, by decide⟩

/-- C2 (amended): a `ref_start == 1` hit surviving step 1 is present in
the output exactly when *no* step-1 survivor with the same `query_id` and
`reference_id` has `ref_end` equal to its extended end; hits with
`ref_start ≠ 1` that survive step 1 are always present (a hit is never
removed merely for being matched as the extended counterpart). -/
theorem anchor_removal_iff (rows out : List LHit) (H : LHit)
    (hsome : remove_redundant_result rows = some out)
    (hmem : H ∈ rows) (hstep : refStartLeTotalLen H = true) :
    (H.ref_start = 1 →
      (H ∈ out ↔ ¬∃ L, H.total_len = some L ∧
        ∃ b, b ∈ rows ∧ refStartLeTotalLen b = true ∧
          b.query_id = H.query_id ∧ b.reference_id = H.reference_id ∧
          b.ref_end = H.ref_end + L))
  ∧ (H.ref_start ≠ 1 → H ∈ out) := by
  have hiff := ((remove_redundant_result_characterization rows).2 out hsome).2 H
  constructor
  · intro h1
    rw [hiff]
    constructor
    · rintro ⟨_, _, hnot⟩ ⟨L, hL, b, hb⟩
      exact hnot ⟨h1, L, hL, b, hb⟩
    · intro hnoex
      refine ⟨hmem, hstep, ?_⟩
      rintro ⟨_, L, hL, b, hb⟩
      exact hnoex ⟨L, hL, b, hb⟩
  · intro h1
    rw [hiff]
    refine ⟨hmem, hstep, ?_⟩
    rintro ⟨heq, _⟩
    exact h1 heq

/-- Witness for C2 (amended): on the single-anchor table `[exAnchorHit]`
(no extended partner) the anchor is kept, and the iff instantiates
concretely. -/
theorem anchor_removal_iff_witness :
    exAnchorHit ∈ ([exAnchorHit] : List LHit) ↔
      ¬∃ L, exAnchorHit.total_len = some L ∧
        ∃ b, b ∈ ([exAnchorHit] : List LHit) ∧ refStartLeTotalLen b = true ∧
          b.query_id = exAnchorHit.query_id ∧
          b.reference_id = exAnchorHit.reference_id ∧
          b.ref_end = exAnchorHit.ref_end + L :=
  (anchor_removal_iff [exAnchorHit] [exAnchorHit] exAnchorHit
    (by decide) (by decide) (by decide)).1 (by decide)

/-- C7 (counterexample): on the two-row table the filter returns
`[exExtendedHit]`, but applying it again raises (the step-1 survivors of
the second pass contain no `ref_start == 1` row, modelled `none`), so the
second application does not reproduce the first. -/
theorem redundancy_idempotence_counterexample :
    (remove_redundant_result [exAnchorHit, exExtendedHit]).bind
        remove_redundant_result
      ≠ remove_redundant_result [exAnchorHit, exExtendedHit] := by
  decide

/-- C7 (amended): whenever the first application succeeds and its output
still contains a `ref_start == 1` row, a second application returns the
same table unchanged (no further rows are removed). -/
theorem remove_redundant_result_idempotent (rows out : List LHit)
    (h : remove_redundant_result rows = some out)
    (hanch : ∃ r ∈ out, r.ref_start = 1) :
    remove_redundant_result out = some out := by
  have hshape := remove_redundant_result_some rows out h
  have houtF : ∀ r ∈ out, r ∈ rows.filter refStartLeTotalLen := by
    intro r hr
    rw [hshape] at hr
    exact (List.mem_filter.mp hr).1
  have hstep1 : ∀ r ∈ out, refStartLeTotalLen r = true := by
    intro r hr
    exact (List.mem_filter.mp (houtF r hr)).2
  have hA : out.filter refStartLeTotalLen = out := List.filter_eq_self.mpr hstep1
  unfold remove_redundant_result
  rw [hA]
  obtain ⟨ra, hra, hra1⟩ := hanch
  rw [if_neg]
  · congr 1
    rw [List.filter_eq_self]
    intro a ha
    have haorig : a ∈ (rows.filter refStartLeTotalLen).filter (fun a =>
        !(a.ref_start == 1 &&
          hasExtendedPartner (rows.filter refStartLeTotalLen) a)) := by
      rw [← hshape]; exact ha
    have hkeep := (List.mem_filter.mp haorig).2
    by_cases h1 : a.ref_start = 1
    · simp only [Bool.not_eq_eq_eq_not, Bool.not_true, Bool.and_eq_false_imp,
        beq_iff_eq] at hkeep ⊢
      intro _
      have hnopart := hkeep h1
      rw [← Bool.not_eq_true, hasExtendedPartner_iff] at hnopart ⊢
      rintro ⟨L, hL, b, hbout, hq, hrf, he⟩
      exact hnopart ⟨L, hL, b, houtF b hbout, hq, hrf, he⟩
    · simp only [Bool.not_eq_eq_eq_not, Bool.not_true, Bool.and_eq_false_imp,
        beq_iff_eq]
      intro heq
      exact absurd heq h1
  · rw [List.isEmpty_iff, List.filter_eq_nil_iff]
    push_neg
    exact ⟨ra, hra, by simpa using hra1⟩

/-- Witness for C7 (amended): on the one-anchor table the filter is
idempotent. -/
theorem remove_redundant_result_idempotent_witness :
    remove_redundant_result [exAnchorHit] = some [exAnchorHit] :=
  remove_redundant_result_idempotent [exAnchorHit] [exAnchorHit]
    (by decide) ⟨exAnchorHit, by decide, by decide⟩

theorem mem_groupedKeys (rows : List IHit) (k : String × String) :
    k ∈ groupedKeys rows ↔
      ∃ r ∈ rows, r.ev_id = some k.1 ∧ r.query_id = k.2 := by
  unfold groupedKeys
  rw [(List.perm_insertionSort _ _).mem_iff, mem_uniqFirstSeen,
    List.mem_filterMap]
  constructor
  · rintro ⟨r, hr, hmap⟩
    rw [Option.map_eq_some'] at hmap
    obtain ⟨e, hev, hpair⟩ := hmap
    refine ⟨r, hr, ?_, ?_⟩
    · rw [hev, ← hpair]
    · rw [← hpair]
  · rintro ⟨r, hr, hev, hq⟩
    refine ⟨r, hr, ?_⟩
    rw [hev, Option.map_some', hq]

theorem nodup_groupedKeys (rows : List IHit) : (groupedKeys rows).Nodup :=
  (List.perm_insertionSort _ _).nodup_iff.mpr (nodup_uniqFirstSeen _)

/-- Every summary row originates from a group key, i.e. from some input
row with a non-NaN `ev_id`. -/
theorem summary_row_source (rows : List IHit) (s : SummaryRow)
    (hs : s ∈ get_grouped_results rows) :
    ∃ r ∈ rows, r.ev_id = some s.ev_id ∧ r.query_id = s.mirna := by
  unfold get_grouped_results at hs
  rw [List.mem_map] at hs
  obtain ⟨k, hk, hmk⟩ := hs
  rw [mem_groupedKeys] at hk
  obtain ⟨r, hr, hev, hq⟩ := hk
  refine ⟨r, hr, ?_, ?_⟩
  · rw [← hmk]; exact hev
  · rw [← hmk]; exact hq

/-- C3 (counterexample): on a table containing `exHitNoLen` (absent from
the length table) and `exHitNoEv` (absent from the event table) the
pipeline completes normally and emits a summary containing only the row
for the fully covered hit: the unmapped hits are silently excluded, and
no error is raised. -/
theorem missing_mapping_counterexample :
    exLenTbl.lookup exHitNoLen.reference_id = none
  ∧ exEvTbl.lookup exHitNoEv.reference_id = none
  ∧ pipeline exLenTbl exEvTbl [exHitKept, exHitNoLen, exHitNoEv] =
      some [{ ev_id := "E1", mirna := "q", max_score := 140, count := 1,
              cross_boundary := 0 }] := by
  refine ⟨by decide, by decide, by decide⟩

/-- C3 (amended): a hit whose `reference_id` is missing from the length
table gets a NaN `total_len` and is silently removed by the redundancy
filter's step-1 comparison (every surviving row has a defined
`total_len`); a hit whose `reference_id` is missing from the event table
gets a NaN `ev_id` and is silently dropped by the final grouping (every
summary row originates from a row with a defined `ev_id`); no error is
raised for either. -/
theorem missing_mapping_silently_dropped :
    (∀ rows out, remove_redundant_result rows = some out →
      ∀ r ∈ out, r.total_len ≠ none)
  ∧ (∀ (rows : List IHit), ∀ s ∈ get_grouped_results rows,
      ∃ r ∈ rows, r.ev_id = some s.ev_id ∧ r.query_id = s.mirna) := by
  constructor
  · intro rows out h r hr
    have hshape := remove_redundant_result_some rows out h
    rw [hshape] at hr
    have hstep := (List.mem_filter.mp (List.mem_filter.mp hr).1).2
    rw [refStartLeTotalLen_iff] at hstep
    obtain ⟨L, hL, _⟩ := hstep
    rw [hL]
    simp
  · exact summary_row_source

/-- Witness for C3 (amended), instantiated on the concrete pipeline run:
the surviving row of the two-step filter has a defined `total_len`, and
the summary row of the concrete aggregation originates from an input row
with a defined `ev_id`. -/
theorem missing_mapping_silently_dropped_witness :
    exAnchorHit.total_len ≠ none
  ∧ ∃ r ∈ [exGroupRow1], r.ev_id = some "E1" ∧ r.query_id = "Q1" := by
  constructor
  · exact (missing_mapping_silently_dropped.1 [exAnchorHit] [exAnchorHit]
      (by decide) exAnchorHit (by decide))
  · exact (missing_mapping_silently_dropped.2 [exGroupRow1]
      { ev_id := "E1", mirna := "Q1", max_score := ratPoint8, count := 1,
        cross_boundary := 0 } (by decide))

theorem idxOf_append_of_notMem {α : Type} [DecidableEq α] (a : α)
    (l t : List α) (h : a ∉ l) : idxOf a (l ++ a :: t) = l.length := by
  induction l with
  | nil => simp [idxOf]
  | cons b l2 ih =>
    simp only [List.mem_cons, not_or] at h
    rw [List.cons_append, idxOf, if_neg (fun hba => h.1 hba.symm), ih h.2,
      List.length_cons]

theorem idxOf_inj_of_mem {α : Type} [DecidableEq α] {l : List α} {x y : α}
    (hx : x ∈ l) (hy : y ∈ l) (h : idxOf x l = idxOf y l) : x = y := by
  induction l with
  | nil => exact absurd hx (List.not_mem_nil x)
  | cons b t ih =>
    by_cases hbx : b = x <;> by_cases hby : b = y
    · rw [← hbx, ← hby]
    · rw [idxOf, idxOf, if_pos hbx, if_neg hby] at h
      exact absurd h.symm (Nat.succ_ne_zero _)
    · rw [idxOf, idxOf, if_neg hbx, if_pos hby] at h
      exact absurd h (Nat.succ_ne_zero _)
    · rw [idxOf, idxOf, if_neg hbx, if_neg hby] at h
      have hx2 : x ∈ t := by
        rcases List.mem_cons.mp hx with h1 | h1
        · exact absurd h1.symm hbx
        · exact h1
      have hy2 : y ∈ t := by
        rcases List.mem_cons.mp hy with h1 | h1
        · exact absurd h1.symm hby
        · exact h1
      exact ih hx2 hy2 (Nat.succ_injective h)

theorem uniqFirstSeen_append {α : Type} [DecidableEq α] (l1 l2 : List α) :
    uniqFirstSeen (l1 ++ l2) =
      uniqFirstSeen l1 ++
        (uniqFirstSeen l2).filter (fun x => decide (x ∉ l1)) := by
  induction l1 with
  | nil =>
    rw [List.nil_append, uniqFirstSeen, List.nil_append,
      List.filter_eq_self.mpr]
    intro a _
    simp
  | cons b l1' ih =>
    rw [List.cons_append, uniqFirstSeen, ih, List.filter_append, uniqFirstSeen,
      List.cons_append, List.filter_filter]
    congr 2
    apply List.filter_congr
    intro x _
    simp only [List.mem_cons, not_or, decide_not]
    by_cases hxb : x = b <;> by_cases hxl : x ∈ l1' <;>
      simp [hxb, hxl]

theorem uniqFirstSeen_idxOf_firstSeen {α : Type} [DecidableEq α]
    (l1 l2 : List α) (a : α) (h : a ∉ l1) :
    idxOf a (uniqFirstSeen (l1 ++ a :: l2)) = (uniqFirstSeen l1).length := by
  rw [uniqFirstSeen_append, uniqFirstSeen,
    List.filter_cons_of_pos (by simpa using h)]
  exact idxOf_append_of_notMem a _ _ (fun hm => h ((mem_uniqFirstSeen l1 a).mp hm))

theorem merged_aln_inj (r1 r2 : EHit)
    (h1 : r1.aln_mirna.length = r1.aln_map.length)
    (h2 : r1.aln_map.length = r1.aln_utr.length)
    (h3 : r2.aln_mirna.length = r2.aln_map.length)
    (h4 : r2.aln_map.length = r2.aln_utr.length)
    (he : merged_aln r1 = merged_aln r2) :
    r1.aln_mirna = r2.aln_mirna ∧ r1.aln_map = r2.aln_map ∧
      r1.aln_utr = r2.aln_utr := by
  unfold merged_aln at he
  have hlen := congrArg List.length he
  simp only [List.length_append] at hlen
  have hfst : (r1.aln_mirna ++ r1.aln_map).length =
      (r2.aln_mirna ++ r2.aln_map).length := by
    simp only [List.length_append]; omega
  obtain ⟨hpair, hutr⟩ := List.append_inj he hfst
  have hmir : r1.aln_mirna.length = r2.aln_mirna.length := by
    have := congrArg List.length hpair
    simp only [List.length_append] at this
    omega
  obtain ⟨ha, hb⟩ := List.append_inj hpair hmir
  exact ⟨ha, hb, hutr⟩

/-- C5: the clusterer (`append_merged_aln` + `generate_aln_id`), on hits
whose three alignment strings have equal length (the Hit invariant),
(i) gives byte-identical `(aln_mirna, aln_map, aln_utr)` triples the same
`aln_id` regardless of `query_id`/`reference_id`, (ii) gives differing
triples different ids, and (iii) assigns ids in first-seen order: a hit
whose signature is new receives the id equal to the number of distinct
signatures seen strictly before it. -/
theorem aln_cluster_ids (rows : List EHit)
    (hlen : ∀ r ∈ rows, r.aln_mirna.length = r.aln_map.length ∧
      r.aln_map.length = r.aln_utr.length) :
    (∀ p ∈ generate_aln_id (append_merged_aln rows),
      ∀ q ∈ generate_aln_id (append_merged_aln rows),
        (p.aln_mirna = q.aln_mirna ∧ p.aln_map = q.aln_map ∧
          p.aln_utr = q.aln_utr) → p.aln_id = q.aln_id)
  ∧ (∀ p ∈ generate_aln_id (append_merged_aln rows),
      ∀ q ∈ generate_aln_id (append_merged_aln rows),
        ¬(p.aln_mirna = q.aln_mirna ∧ p.aln_map = q.aln_map ∧
          p.aln_utr = q.aln_utr) → p.aln_id ≠ q.aln_id)
  ∧ (∀ pre r post, rows = pre ++ r :: post →
      (∀ r2 ∈ pre, merged_aln r2 ≠ merged_aln r) →
      (generate_aln_id (append_merged_aln rows))[pre.length]?.map
          (fun p => p.aln_id) =
        some (uniqFirstSeen (pre.map merged_aln)).length) := by
  have heq : generate_aln_id (append_merged_aln rows) =
      rows.map (fun r =>
        { toAHit := { toEHit := r, aln := merged_aln r }
          aln_id := idxOf (merged_aln r)
            (uniqFirstSeen (rows.map merged_aln)) }) := by
    unfold generate_aln_id append_merged_aln
    simp only [List.map_map]
    rfl
  have hmap : ∀ p, p ∈ generate_aln_id (append_merged_aln rows) ↔
      ∃ r ∈ rows, p =
        { toAHit := { toEHit := r, aln := merged_aln r }
          aln_id := idxOf (merged_aln r)
            (uniqFirstSeen (rows.map merged_aln)) } := by
    intro p
    rw [heq, List.mem_map]
    constructor
    · rintro ⟨r, hr, hp⟩
      exact ⟨r, hr, hp.symm⟩
    · rintro ⟨r, hr, hp⟩
      exact ⟨r, hr, hp.symm⟩
  refine ⟨?_, ?_, ?_⟩
  · intro p hp q hq htriples
    obtain ⟨r1, _, hp1⟩ := (hmap p).mp hp
    obtain ⟨r2, _, hq1⟩ := (hmap q).mp hq
    subst hp1; subst hq1
    simp only at htriples ⊢
    unfold merged_aln
    rw [htriples.1, htriples.2.1, htriples.2.2]
  · intro p hp q hq htriples
    obtain ⟨r1, hr1, hp1⟩ := (hmap p).mp hp
    obtain ⟨r2, hr2, hq1⟩ := (hmap q).mp hq
    subst hp1; subst hq1
    simp only at htriples ⊢
    intro hids
    have hmem1 : merged_aln r1 ∈ uniqFirstSeen (rows.map merged_aln) :=
      (mem_uniqFirstSeen _ _).mpr (List.mem_map_of_mem _ hr1)
    have hmem2 : merged_aln r2 ∈ uniqFirstSeen (rows.map merged_aln) :=
      (mem_uniqFirstSeen _ _).mpr (List.mem_map_of_mem _ hr2)
    have hsig := idxOf_inj_of_mem hmem1 hmem2 hids
    obtain ⟨ha, hb, hc⟩ := merged_aln_inj r1 r2 (hlen r1 hr1).1 (hlen r1 hr1).2
      (hlen r2 hr2).1 (hlen r2 hr2).2 hsig
    exact htriples ⟨ha, hb, hc⟩
  · intro pre r post hrows hnew
    subst hrows
    rw [heq, List.map_append, List.map_cons,
      List.getElem?_append_right (by simp), List.length_map, Nat.sub_self,
      List.getElem?_cons_zero, Option.map_some']
    congr 1
    rw [List.map_append, List.map_cons]
    exact uniqFirstSeen_idxOf_firstSeen _ _ _ (by
      rw [List.mem_map]
      rintro ⟨r2, hr2, hsig⟩
      exact hnew r2 hr2 hsig)

/-- Witness for C5 on the three-hit table
`[exClusterA, exClusterB, exClusterC]` (identical triples for A and B,
one differing character for C): C's signature is new, so its id is the
number of distinct signatures before it; concretely the assigned ids are
`[0, 0, 1]` and a repeated A reuses id 0. -/
theorem aln_cluster_ids_witness :
    ((generate_aln_id (append_merged_aln
        [exClusterA, exClusterB, exClusterC]))[([exClusterA,
          exClusterB] : List EHit).length]?.map (fun p => p.aln_id) =
      some (uniqFirstSeen (([exClusterA, exClusterB] : List EHit).map
        merged_aln)).length)
  ∧ (generate_aln_id (append_merged_aln
      [exClusterA, exClusterB, exClusterC, exClusterA])).map
        (fun p => p.aln_id) = [0, 0, 1, 0] :=
  ⟨(aln_cluster_ids [exClusterA, exClusterB, exClusterC] (by decide)).2.2
      [exClusterA, exClusterB] exClusterC [] rfl (by decide),
   by decide⟩

theorem mem_groupRows (rows : List IHit) (k : String × String) (r : IHit) :
    r ∈ groupRows rows k ↔
      r ∈ rows ∧ r.ev_id = some k.1 ∧ r.query_id = k.2 := by
  simp [groupRows, List.mem_filter]

theorem foldl_max_score (g : List IHit) (init : ℚ) :
    (init ≤ g.foldl (fun m x => max m x.score) init)
  ∧ (∀ r ∈ g, r.score ≤ g.foldl (fun m x => max m x.score) init)
  ∧ (g.foldl (fun m x => max m x.score) init = init ∨
      ∃ r ∈ g, g.foldl (fun m x => max m x.score) init = r.score) := by
  induction g generalizing init with
  | nil => exact ⟨le_refl _, by simp, Or.inl rfl⟩
  | cons a t ih =>
    obtain ⟨ih1, ih2, ih3⟩ := ih (max init a.score)
    rw [List.foldl_cons]
    refine ⟨le_trans (le_max_left _ _) ih1, ?_, ?_⟩
    · intro r hr
      rcases List.mem_cons.mp hr with h | h
      · rw [h]
        exact le_trans (le_max_right _ _) ih1
      · exact ih2 r h
    · rcases ih3 with h | ⟨r, hr, h⟩
      · rcases max_choice init a.score with hm | hm
        · exact Or.inl (h.trans hm)
        · exact Or.inr ⟨a, List.mem_cons_self a t, h.trans hm⟩
      · exact Or.inr ⟨r, List.mem_cons_of_mem a hr, h⟩

theorem maxScoreOf_spec (g : List IHit) (hne : g ≠ []) :
    (∃ r ∈ g, r.score = maxScoreOf g) ∧ ∀ r ∈ g, r.score ≤ maxScoreOf g := by
  cases g with
  | nil => exact absurd rfl hne
  | cons r0 rest =>
    obtain ⟨h1, h2, h3⟩ := foldl_max_score rest r0.score
    unfold maxScoreOf
    constructor
    · rcases h3 with h | ⟨r, hr, h⟩
      · exact ⟨r0, List.mem_cons_self r0 rest, h.symm⟩
      · exact ⟨r, List.mem_cons_of_mem r0 hr, h.symm⟩
    · intro r hr
      rcases List.mem_cons.mp hr with h | h
      · rw [h]
        exact h1
      · exact h2 r h

theorem foldl_max_cross (g : List IHit) (init : Nat)
    (hg : ∀ r ∈ g, r.cross_boundary ≤ 1) (hi : init ≤ 1) :
    (g.foldl (fun m x => max m x.cross_boundary) init = 1 ↔
      (init = 1 ∨ ∃ r ∈ g, r.cross_boundary = 1)) := by
  induction g generalizing init with
  | nil => simp
  | cons a t ih =>
    have ha := hg a (List.mem_cons_self a t)
    have ih2 := ih (max init a.cross_boundary)
      (fun r hr => hg r (List.mem_cons_of_mem a hr)) (by omega)
    rw [List.foldl_cons, ih2]
    constructor
    · rintro (h | h)
      · rcases max_choice init a.cross_boundary with hm | hm
        · rw [hm] at h
          exact Or.inl h
        · rw [hm] at h
          exact Or.inr ⟨a, List.mem_cons_self a t, h⟩
      · obtain ⟨r, hr, hcb⟩ := h
        exact Or.inr ⟨r, List.mem_cons_of_mem a hr, hcb⟩
    · rintro (h | ⟨r, hr, hcb⟩)
      · exact Or.inl (by omega)
      · rcases List.mem_cons.mp hr with hh | hh
        · refine Or.inl ?_
          rw [hh] at hcb
          omega
        · exact Or.inr ⟨r, hh, hcb⟩

theorem maxCrossOf_eq_one_iff (g : List IHit)
    (hg : ∀ r ∈ g, r.cross_boundary ≤ 1) :
    maxCrossOf g = 1 ↔ ∃ r ∈ g, r.cross_boundary = 1 := by
  unfold maxCrossOf
  rw [foldl_max_cross g 0 hg (by omega)]
  simp

theorem countP_key (ks : List (String × String)) (hnd : ks.Nodup)
    (e q : String) :
    ks.countP (fun k => k.1 == e && k.2 == q) =
      if (e, q) ∈ ks then 1 else 0 := by
  induction ks with
  | nil => simp
  | cons a t ih =>
    have hnd2 := List.nodup_cons.mp hnd
    rw [List.countP_cons, ih hnd2.2]
    cases hb : (a.1 == e && a.2 == q) with
    | true =>
      simp only [Bool.and_eq_true, beq_iff_eq] at hb
      have ha : a = (e, q) := Prod.ext hb.1 hb.2
      rw [if_neg (fun hm : (e, q) ∈ t => hnd2.1 (by rw [ha]; exact hm)),
        if_pos (show (e, q) ∈ a :: t by rw [← ha]; exact List.mem_cons_self a t)]
      simp
    | false =>
      have ha : a ≠ (e, q) := by
        intro hae
        rw [hae] at hb
        simp at hb
      by_cases hm : (e, q) ∈ t
      · rw [if_pos hm, if_pos (List.mem_cons_of_mem a hm)]
        simp
      · rw [if_neg hm, if_neg (show ¬(e, q) ∈ a :: t by
          rw [List.mem_cons]
          rintro (h | h)
          · exact ha h.symm
          · exact hm h)]
        simp

/-- C6: the aggregator emits exactly one row per distinct
`(event_id, query_id)` group; within a group, `max_score` is the maximum
score (attained by some member and bounding all members), `count` is the
number of distinct cluster ids, and `cross_boundary` is 1 exactly when
some member's flag is 1 (the logical OR of the 0/1 flags). -/
theorem grouped_results_correct (rows : List IHit)
    (hcb : ∀ r ∈ rows, r.cross_boundary ≤ 1) :
    (∀ e q, (get_grouped_results rows).countP
        (fun s => s.ev_id == e && s.mirna == q) =
      (if ∃ r ∈ rows, r.ev_id = some e ∧ r.query_id = q then 1 else 0))
  ∧ (∀ s ∈ get_grouped_results rows,
      (∃ r ∈ groupRows rows (s.ev_id, s.mirna), r.score = s.max_score)
      ∧ (∀ r ∈ groupRows rows (s.ev_id, s.mirna), r.score ≤ s.max_score)
      ∧ s.count = ((groupRows rows (s.ev_id, s.mirna)).map
          (fun r => r.aln_id)).toFinset.card
      ∧ (s.cross_boundary = 1 ↔
          ∃ r ∈ groupRows rows (s.ev_id, s.mirna), r.cross_boundary = 1)) := by
  constructor
  · intro e q
    unfold get_grouped_results
    rw [List.countP_map]
    have hcongr : ((fun s : SummaryRow => s.ev_id == e && s.mirna == q) ∘
        mkSummaryRow rows) = (fun k => k.1 == e && k.2 == q) := rfl
    rw [hcongr, countP_key (groupedKeys rows) (nodup_groupedKeys rows) e q]
    by_cases hm : ∃ r ∈ rows, r.ev_id = some e ∧ r.query_id = q
    · rw [if_pos ((mem_groupedKeys rows (e, q)).mpr hm), if_pos hm]
    · rw [if_neg (fun hk => hm ((mem_groupedKeys rows (e, q)).mp hk)),
        if_neg hm]
  · intro s hs
    unfold get_grouped_results at hs
    rw [List.mem_map] at hs
    obtain ⟨k, hk, hmk⟩ := hs
    obtain ⟨r0, hr0, hev0, hq0⟩ := (mem_groupedKeys rows k).mp hk
    subst hmk
    have hkey : ((mkSummaryRow rows k).ev_id, (mkSummaryRow rows k).mirna) = k := rfl
    rw [hkey]
    have hne : groupRows rows k ≠ [] := by
      intro hnil
      have : r0 ∈ groupRows rows k :=
        (mem_groupRows rows k r0).mpr ⟨hr0, hev0, hq0⟩
      rw [hnil] at this
      exact List.not_mem_nil r0 this
    obtain ⟨hmax1, hmax2⟩ := maxScoreOf_spec (groupRows rows k) hne
    refine ⟨hmax1, hmax2, ?_, ?_⟩
    · exact length_uniqFirstSeen _
    · exact maxCrossOf_eq_one_iff (groupRows rows k)
        (fun r hr => hcb r ((mem_groupRows rows k r).mp hr).1)

/-- Witness for C6: the concrete scenario
`{(E1,Q1,0.8,cluster 1,cross 0), (E1,Q1,0.95,cluster 2,cross 1),
(E1,Q1,0.95,cluster 2,cross 0)}` yields the single summary row
`(E1, Q1, max_score 0.95, count 2, cross_boundary 1)`. -/
theorem grouped_results_correct_witness :
    get_grouped_results [exGroupRow1, exGroupRow2, exGroupRow3] = [exSummaryRow]
  ∧ (∃ r ∈ groupRows [exGroupRow1, exGroupRow2, exGroupRow3] ("E1", "Q1"),
      r.score = ratPoint95)
  ∧ (∀ r ∈ groupRows [exGroupRow1, exGroupRow2, exGroupRow3] ("E1", "Q1"),
      r.score ≤ ratPoint95)
  ∧ (2 : Nat) = ((groupRows [exGroupRow1, exGroupRow2, exGroupRow3]
      ("E1", "Q1")).map (fun r => r.aln_id)).toFinset.card
  ∧ ((1 : Nat) = 1 ↔ ∃ r ∈ groupRows [exGroupRow1, exGroupRow2, exGroupRow3]
      ("E1", "Q1"), r.cross_boundary = 1) := by
  have h := (grouped_results_correct [exGroupRow1, exGroupRow2, exGroupRow3]
    (by decide)).2 exSummaryRow (by decide)
  exact ⟨by decide, h.1, h.2.1, h.2.2.1, h.2.2.2⟩

theorem digitOf_digitChar (d : Nat) (h : d < 10) :
    digitOf (digitChar d) = some d := by
  interval_cases d <;> decide

theorem digitChar_not_special (d : Nat) (h : d < 10) :
    digitChar d ≠ '\t' ∧ digitChar d ≠ '=' ∧ digitChar d ≠ '-' ∧
      digitChar d ≠ '.' := by
  interval_cases d <;> exact ⟨by decide, by decide, by decide, by decide⟩

theorem printNatAux_ne_nil (fuel n : Nat) (h : 0 < fuel) :
    printNatAux fuel n ≠ [] := by
  cases fuel with
  | zero => omega
  | succ f =>
    rw [printNatAux]
    split
    · simp
    · simp

theorem printNatAux_chars (fuel n : Nat) (c : Char)
    (hc : c ∈ printNatAux fuel n) : ∃ d, d < 10 ∧ c = digitChar d := by
  induction fuel generalizing n with
  | zero => simp [printNatAux] at hc
  | succ f ih =>
    rw [printNatAux] at hc
    split at hc
    · rw [List.mem_singleton] at hc
      exact ⟨n, by omega, hc⟩
    · rcases List.mem_append.mp hc with h | h
      · exact ih _ h
      · rw [List.mem_singleton] at h
        exact ⟨n % 10, Nat.mod_lt n (by omega), h⟩

theorem printNat_chars (n : Nat) (c : Char) (hc : c ∈ printNat n) :
    ∃ d, d < 10 ∧ c = digitChar d :=
  printNatAux_chars (n + 1) n c hc

theorem parseNatFrom_nil (acc : Nat) : parseNatFrom acc [] = some acc := rfl

theorem parseNatFrom_cons (acc : Nat) (c : Char) (cs : Line) :
    parseNatFrom acc (c :: cs) =
      (digitOf c).bind (fun d => parseNatFrom (acc * 10 + d) cs) := rfl

theorem parseNatFrom_append_some (l1 l2 : Line) (acc m : Nat)
    (h : parseNatFrom acc l1 = some m) :
    parseNatFrom acc (l1 ++ l2) = parseNatFrom m l2 := by
  induction l1 generalizing acc with
  | nil =>
    rw [parseNatFrom_nil] at h
    cases h
    rfl
  | cons c cs ih =>
    rw [List.cons_append, parseNatFrom_cons]
    rw [parseNatFrom_cons] at h
    cases hd : digitOf c with
    | none => rw [hd] at h; exact absurd h (by simp)
    | some d =>
      rw [hd, Option.some_bind] at h
      rw [Option.some_bind]
      exact ih _ h

theorem parseNatFrom_printNatAux (fuel n acc : Nat) (hn : n < fuel) :
    parseNatFrom acc (printNatAux fuel n) =
      some (acc * 10 ^ (printNatAux fuel n).length + n) := by
  induction fuel generalizing n acc with
  | zero => omega
  | succ f ih =>
    rw [printNatAux]
    split
    next h10 =>
      rw [parseNatFrom_cons, digitOf_digitChar n h10, Option.some_bind,
        parseNatFrom_nil]
      simp only [List.length_singleton, pow_one]
    next h10 =>
      have hdiv : n / 10 < f := by omega
      have hstep : parseNatFrom acc (printNatAux f (n / 10) ++ [digitChar (n % 10)]) =
          parseNatFrom (acc * 10 ^ (printNatAux f (n / 10)).length + n / 10)
            [digitChar (n % 10)] :=
        parseNatFrom_append_some _ _ _ _ (ih (n / 10) acc hdiv)
      rw [hstep, parseNatFrom_cons, digitOf_digitChar _ (Nat.mod_lt n (by omega)),
        Option.some_bind, parseNatFrom_nil, List.length_append,
        List.length_singleton]
      congr 1
      have hmod := Nat.div_add_mod n 10
      rw [pow_succ]
      ring_nf
      omega

theorem parseNat_of_ne_nil (l : Line) (h : l ≠ []) :
    parseNat l = parseNatFrom 0 l := by
  cases l with
  | nil => exact absurd rfl h
  | cons c cs => rfl

theorem parseNat_printNat (n : Nat) : parseNat (printNat n) = some n := by
  rw [printNat, parseNat_of_ne_nil _ (printNatAux_ne_nil (n + 1) n (by omega)),
    parseNatFrom_printNatAux (n + 1) n 0 (by omega)]
  simp

theorem printNat_head_digit (n : Nat) :
    ∃ c cs, printNat n = c :: cs ∧ ∃ d, d < 10 ∧ c = digitChar d := by
  cases hl : printNat n with
  | nil => exact absurd hl (printNatAux_ne_nil (n + 1) n (by omega))
  | cons c cs =>
    refine ⟨c, cs, rfl, ?_⟩
    exact printNat_chars n c (by rw [hl]; exact List.mem_cons_self c cs)

theorem parseInt_cons (c : Char) (cs : Line) :
    parseInt (c :: cs) =
      if c = '-' then (parseNat cs).map (fun n => -(Int.ofNat n))
      else (parseNat (c :: cs)).map (fun n => Int.ofNat n) := rfl

theorem parseInt_printInt (i : Int) : parseInt (printInt i) = some i := by
  unfold printInt
  split
  next hneg =>
    rw [parseInt_cons, if_pos rfl, parseNat_printNat, Option.map_some']
    simp only [Int.ofNat_eq_coe, Option.some.injEq]
    omega
  next hneg =>
    obtain ⟨c, cs, hl, d, hd, hcd⟩ := printNat_head_digit i.toNat
    rw [hl, parseInt_cons,
      if_neg (by rw [hcd]; exact (digitChar_not_special d hd).2.2.1),
      ← hl, parseNat_printNat, Option.map_some']
    simp only [Int.ofNat_eq_coe, Option.some.injEq]
    omega

theorem printNat_not_special (n : Nat) :
    '\t' ∉ printNat n ∧ '=' ∉ printNat n ∧ '-' ∉ printNat n ∧
      '.' ∉ printNat n := by
  refine ⟨?_, ?_, ?_, ?_⟩ <;> intro hmem
  · obtain ⟨d, hd, hc⟩ := printNat_chars n _ hmem
    exact (digitChar_not_special d hd).1 hc.symm
  · obtain ⟨d, hd, hc⟩ := printNat_chars n _ hmem
    exact (digitChar_not_special d hd).2.1 hc.symm
  · obtain ⟨d, hd, hc⟩ := printNat_chars n _ hmem
    exact (digitChar_not_special d hd).2.2.1 hc.symm
  · obtain ⟨d, hd, hc⟩ := printNat_chars n _ hmem
    exact (digitChar_not_special d hd).2.2.2 hc.symm

theorem printNatPad_chars (w n : Nat) (c : Char) (hc : c ∈ printNatPad w n) :
    ∃ d, d < 10 ∧ c = digitChar d := by
  unfold printNatPad at hc
  rcases List.mem_append.mp hc with h | h
  · rw [List.eq_of_mem_replicate h]
    exact ⟨0, by omega, rfl⟩
  · exact printNat_chars n c h

theorem printNatPad_not_special (w n : Nat) :
    '\t' ∉ printNatPad w n ∧ '=' ∉ printNatPad w n ∧ '-' ∉ printNatPad w n ∧
      '.' ∉ printNatPad w n := by
  refine ⟨?_, ?_, ?_, ?_⟩ <;> intro hmem
  · obtain ⟨d, hd, hc⟩ := printNatPad_chars w n _ hmem
    exact (digitChar_not_special d hd).1 hc.symm
  · obtain ⟨d, hd, hc⟩ := printNatPad_chars w n _ hmem
    exact (digitChar_not_special d hd).2.1 hc.symm
  · obtain ⟨d, hd, hc⟩ := printNatPad_chars w n _ hmem
    exact (digitChar_not_special d hd).2.2.1 hc.symm
  · obtain ⟨d, hd, hc⟩ := printNatPad_chars w n _ hmem
    exact (digitChar_not_special d hd).2.2.2 hc.symm

theorem printNatAux_length_le (fuel n w : Nat) (hn : n < fuel)
    (hw : 0 < w) (hbound : n < 10 ^ w) :
    (printNatAux fuel n).length ≤ w := by
  induction fuel generalizing n w with
  | zero => omega
  | succ f ih =>
    rw [printNatAux]
    split
    next => simpa using hw
    next h10 =>
      have hw2 : 2 ≤ w := by
        by_contra hlt
        have hw1 : w = 1 := by omega
        rw [hw1, pow_one] at hbound
        omega
      have hdivb : n / 10 < 10 ^ (w - 1) := by
        rw [Nat.div_lt_iff_lt_mul (by omega)]
        calc n < 10 ^ w := hbound
        _ = 10 ^ (w - 1) * 10 := by
          rw [← pow_succ]
          congr 1
          omega
      have := ih (n / 10) (w - 1) (by omega) (by omega) hdivb
      rw [List.length_append, List.length_singleton]
      omega

theorem printNat_length_le (n w : Nat) (hw : 0 < w) (hbound : n < 10 ^ w) :
    (printNat n).length ≤ w :=
  printNatAux_length_le (n + 1) n w (by omega) hw hbound

theorem printNatPad_length (w n : Nat) (hw : 0 < w) (hbound : n < 10 ^ w) :
    (printNatPad w n).length = w := by
  unfold printNatPad
  rw [List.length_append, List.length_replicate]
  have := printNat_length_le n w hw hbound
  omega

theorem parseNatFrom_zeros (k : Nat) (l : Line) :
    parseNatFrom 0 (List.replicate k '0' ++ l) = parseNatFrom 0 l := by
  induction k with
  | zero => rw [List.replicate_zero, List.nil_append]
  | succ m ih =>
    rw [List.replicate_succ, List.cons_append, parseNatFrom_cons,
      show digitOf '0' = some 0 from rfl, Option.some_bind]
    simpa using ih

theorem parseNat_printNatPad (w n : Nat) :
    parseNat (printNatPad w n) = some n := by
  unfold printNatPad
  have hne : List.replicate (w - (printNat n).length) '0' ++ printNat n ≠ [] := by
    intro hnil
    rcases List.append_eq_nil.mp hnil with ⟨_, h2⟩
    exact printNatAux_ne_nil (n + 1) n (by omega) h2
  rw [parseNat_of_ne_nil _ hne, parseNatFrom_zeros, printNat,
    parseNatFrom_printNatAux (n + 1) n 0 (by omega)]
  simp

theorem parseDec_cons (c : Char) (cs : Line) :
    parseDec (c :: cs) =
      if c = '-' then (parseDecAbs cs).map (fun p => ⟨true, p.1, p.2.1, p.2.2⟩)
      else (parseDecAbs (c :: cs)).map (fun p => ⟨false, p.1, p.2.1, p.2.2⟩) := rfl

theorem parseDecAbs_no_dot (l : Line) (h : '.' ∉ l) :
    parseDecAbs l = (parseNat l).map (fun n => (n, 0, 0)) := by
  unfold parseDecAbs
  rw [splitOnChar_of_no_sep '.' l h]

theorem parseDecAbs_split (a b : Line) (ha : '.' ∉ a) (hb : '.' ∉ b) :
    parseDecAbs (a ++ '.' :: b) =
      match parseNat a, parseNat b with
      | some ni, some nf => some (ni, nf, b.length)
      | _, _ => none := by
  unfold parseDecAbs
  rw [splitOnChar_append_sep '.' a _ ha, splitOnChar_of_no_sep '.' b hb]

theorem parseDec_printDec (d : Dec) (h : WFDec d) :
    parseDec (printDec d) = some d := by
  obtain ⟨hbound, hp0⟩ := h
  obtain ⟨neg, ipart, fpart, places⟩ := d
  simp only [WFDec] at hbound hp0
  unfold printDec
  simp only
  by_cases hpl : places = 0
  · subst hpl
    have hf0 : fpart = 0 := hp0 rfl
    subst hf0
    rw [if_pos rfl, List.append_nil]
    cases neg with
    | false =>
      rw [if_neg (by simp)]
      rw [List.nil_append]
      obtain ⟨c, cs, hl, dd, hdd, hcd⟩ := printNat_head_digit ipart
      rw [hl, parseDec_cons,
        if_neg (by rw [hcd]; exact (digitChar_not_special dd hdd).2.2.1), ← hl,
        parseDecAbs_no_dot _ (printNat_not_special ipart).2.2.2,
        parseNat_printNat]
      rfl
    | true =>
      rw [if_pos rfl, List.singleton_append, parseDec_cons, if_pos rfl,
        parseDecAbs_no_dot _ (printNat_not_special ipart).2.2.2,
        parseNat_printNat]
      rfl
  · rw [if_neg hpl]
    have habs : parseDecAbs (printNat ipart ++ '.' :: printNatPad places fpart) =
        some (ipart, fpart, places) := by
      rw [parseDecAbs_split _ _ (printNat_not_special ipart).2.2.2
        (printNatPad_not_special places fpart).2.2.2, parseNat_printNat,
        parseNat_printNatPad,
        printNatPad_length places fpart (by omega) hbound]
    cases neg with
    | false =>
      rw [if_neg (by simp), List.nil_append]
      obtain ⟨c, cs, hl, dd, hdd, hcd⟩ := printNat_head_digit ipart
      rw [hl, List.cons_append, parseDec_cons,
        if_neg (by rw [hcd]; exact (digitChar_not_special dd hdd).2.2.1),
        ← List.cons_append, ← hl, habs]
      rfl
    | true =>
      rw [if_pos rfl, List.singleton_append, List.cons_append, parseDec_cons,
        if_pos rfl, habs]
      rfl

theorem mapM_option_eq_some {α β : Type} (f : α → Option β) (l : List α)
    (v : List β) :
    l.mapM f = some v ↔
      List.Forall₂ (fun a b => f a = some b) l v := by
  induction l generalizing v with
  | nil =>
    rw [List.mapM_nil]
    constructor
    · intro h
      cases h
      exact List.Forall₂.nil
    · intro h
      cases h
      rfl
  | cons a t ih =>
    rw [List.mapM_cons]
    constructor
    · intro h
      cases hfa : f a with
      | none => rw [hfa] at h; exact absurd h (by simp)
      | some b =>
        rw [hfa] at h
        cases hmt : t.mapM f with
        | none => rw [hmt] at h; exact absurd h (by simp)
        | some bs =>
          rw [hmt] at h
          simp at h
          subst h
          exact List.Forall₂.cons hfa ((ih bs).mp hmt)
    · intro h
      cases h with
      | cons hfa htail =>
        rw [hfa, (ih _).mpr htail]
        rfl

theorem pick_kv (k v : Line) (hk : '=' ∉ k) (hv : '=' ∉ v) :
    (splitOnChar '=' (k ++ '=' :: v))[1]? = some v := by
  rw [splitOnChar_append_sep '=' k _ hk, splitOnChar_of_no_sep '=' v hv]
  rfl

theorem forall2_pick (keys vals : List Line)
    (hlen : keys.length = vals.length)
    (hkeys : ∀ k ∈ keys, '=' ∉ k) (hvals : ∀ v ∈ vals, '=' ∉ v) :
    List.Forall₂ (fun kv v => (splitOnChar '=' kv)[1]? = some v)
      (List.zipWith (fun k v => k ++ '=' :: v) keys vals) vals := by
  induction keys generalizing vals with
  | nil =>
    cases vals with
    | nil => exact List.Forall₂.nil
    | cons v vs => simp at hlen
  | cons k ks ih =>
    cases vals with
    | nil => simp at hlen
    | cons v vs =>
      rw [List.zipWith_cons_cons]
      refine List.Forall₂.cons
        (pick_kv k v (hkeys k (List.mem_cons_self k ks))
          (hvals v (List.mem_cons_self v vs))) ?_
      exact ih vs (by simpa using hlen)
        (fun k2 h2 => hkeys k2 (List.mem_cons_of_mem _ h2))
        (fun v2 h2 => hvals v2 (List.mem_cons_of_mem _ h2))

theorem mem_zipWith_kv (keys vals : List Line) (p : Line)
    (hp : p ∈ List.zipWith (fun k v => k ++ '=' :: v) keys vals) :
    ∃ k ∈ keys, ∃ v ∈ vals, p = k ++ '=' :: v := by
  induction keys generalizing vals with
  | nil => simp at hp
  | cons k ks ih =>
    cases vals with
    | nil => simp at hp
    | cons v vs =>
      rw [List.zipWith_cons_cons, List.mem_cons] at hp
      rcases hp with h | h
      · exact ⟨k, List.mem_cons_self k ks, v, List.mem_cons_self v vs, h⟩
      · obtain ⟨k2, hk2, v2, hv2, hpe⟩ := ih vs h
        exact ⟨k2, List.mem_cons_of_mem _ hk2, v2, List.mem_cons_of_mem _ hv2, hpe⟩

theorem get_value_joinSep (keys vals : List Line)
    (hlen : keys.length = vals.length) (hne : keys ≠ [])
    (hkeys : ∀ k ∈ keys, '\t' ∉ k ∧ '=' ∉ k)
    (hvals : ∀ v ∈ vals, '\t' ∉ v ∧ '=' ∉ v) :
    get_value (joinSep '\t'
      (List.zipWith (fun k v => k ++ '=' :: v) keys vals)) = some vals := by
  unfold get_value
  have hzne : List.zipWith (fun k v => k ++ '=' :: v) keys vals ≠ [] := by
    cases keys with
    | nil => exact absurd rfl hne
    | cons k ks =>
      cases vals with
      | nil => simp at hlen
      | cons v vs =>
        rw [List.zipWith_cons_cons]
        simp
  have hztab : ∀ p ∈ List.zipWith (fun k v => k ++ '=' :: v) keys vals,
      '\t' ∉ p := by
    intro p hp
    obtain ⟨k, hk, v, hv, hpe⟩ := mem_zipWith_kv keys vals p hp
    rw [hpe]
    intro hmem
    rcases List.mem_append.mp hmem with hmk | hmk
    · exact (hkeys k hk).1 hmk
    · rcases List.mem_cons.mp hmk with he | he
      · exact absurd he (by decide)
      · exact (hvals v hv).1 he
  rw [splitOnChar_joinSep '\t' _ hzne hztab, mapM_option_eq_some]
  exact forall2_pick keys vals hlen (fun k hk => (hkeys k hk).2)
    (fun v hv => (hvals v hv).2)

theorem markerLines_single_hit (body : Line) :
    markerLines [marker ++ body] = [body] := by
  have hpre : marker.isPrefixOf (marker ++ body) = true :=
    List.isPrefixOf_iff_prefix.mpr ⟨body, rfl⟩
  unfold markerLines
  simp only [List.filterMap_cons, hpre, if_pos, List.filterMap_nil,
    List.drop_left]

theorem printInt_not_special (i : Int) :
    '\t' ∉ printInt i ∧ '=' ∉ printInt i := by
  unfold printInt
  split <;> constructor <;> intro hmem
  · rcases List.mem_cons.mp hmem with h | h
    · exact absurd h (by decide)
    · exact (printNat_not_special _).1 h
  · rcases List.mem_cons.mp hmem with h | h
    · exact absurd h (by decide)
    · exact (printNat_not_special _).2.1 h
  · exact (printNat_not_special _).1 hmem
  · exact (printNat_not_special _).2.1 hmem

theorem printDec_not_special (d : Dec) :
    '\t' ∉ printDec d ∧ '=' ∉ printDec d := by
  unfold printDec
  constructor <;> intro hmem
  · rcases List.mem_append.mp hmem with h | h
    · rcases List.mem_append.mp h with h2 | h2
      · split at h2
        · rw [List.mem_singleton] at h2
          exact absurd h2 (by decide)
        · simp at h2
      · exact (printNat_not_special _).1 h2
    · split at h
      · simp at h
      · rcases List.mem_cons.mp h with h2 | h2
        · exact absurd h2 (by decide)
        · exact (printNatPad_not_special _ _).1 h2
  · rcases List.mem_append.mp hmem with h | h
    · rcases List.mem_append.mp h with h2 | h2
      · split at h2
        · rw [List.mem_singleton] at h2
          exact absurd h2 (by decide)
        · simp at h2
      · exact (printNat_not_special _).2.1 h2
    · split at h
      · simp at h
      · rcases List.mem_cons.mp h with h2 | h2
        · exact absurd h2 (by decide)
        · exact (printNatPad_not_special _ _).2.1 h2

theorem hitValues_no_special (h : ParsedHit) (hwf : WFParsedHit h) :
    ∀ v ∈ hitValues h, '\t' ∉ v ∧ '=' ∉ v := by
  obtain ⟨hq, hr, hm1, hm2, hm3, hsc, hen, hidt, hsim⟩ := hwf
  intro v hv
  unfold hitValues at hv
  simp only [List.mem_cons, List.not_mem_nil, or_false] at hv
  rcases hv with h1 | h1 | h1 | h1 | h1 | h1 | h1 | h1 | h1 | h1 | h1 | h1 | h1 | h1 <;>
    subst h1
  · exact hq
  · exact hr
  · exact printDec_not_special _
  · exact printDec_not_special _
  · exact printInt_not_special _
  · exact printInt_not_special _
  · exact printInt_not_special _
  · exact printInt_not_special _
  · exact printInt_not_special _
  · exact printDec_not_special _
  · exact printDec_not_special _
  · exact hm1
  · exact hm2
  · exact hm3

/-- C8 (counterexample): a line carrying the result marker whose single
field contains no `=` makes `_get_value` raise `IndexError`
(`kv.split('=')[1]` on a one-element split), so the parse yields no
record at all (modelled `none`) instead of the one record per marker line
the claim demands. -/
theorem parse_result_counterexample :
    marker.isPrefixOf exBadLine = true ∧ parse_result [exBadLine] = none := by
  refine ⟨by decide, by decide⟩

/-- C8 (amended): `parse_result` succeeds with value list `vs` exactly
when `vs` pairs the captured groups of the marker lines, in input order
(non-marker lines are ignored without error; a marker line with a field
lacking `=` is a fatal `IndexError`); and for every well-formed result
line built by rendering the 14 typed fields, parsing recovers the 14
field strings byte-exactly and the typed conversion recovers the typed
values exactly (integers exactly; floats as exact decimal literals,
hence within any floating-point tolerance). -/
theorem parse_result_spec :
    (∀ (raw : List Line) (vs : List (List Line)),
      parse_result raw = some vs ↔
        List.Forall₂ (fun l v => get_value l = some v) (markerLines raw) vs)
  ∧ (∀ h : ParsedHit, WFParsedHit h →
      parse_result [mkHitLine h] = some [hitValues h]
      ∧ toParsedHit (hitValues h) = some h) := by
  constructor
  · intro raw vs
    exact mapM_option_eq_some get_value (markerLines raw) vs
  · intro h hwf
    constructor
    · unfold parse_result mkHitLine mkResultLine
      rw [markerLines_single_hit, mapM_option_eq_some]
      refine List.Forall₂.cons ?_ List.Forall₂.nil
      exact get_value_joinSep RESULT_TITLE (hitValues h) rfl
        (by decide) (by decide) (hitValues_no_special h hwf)
    · obtain ⟨hq, hr, hm1, hm2, hm3, hsc, hen, hidt, hsim⟩ := hwf
      unfold hitValues toParsedHit
      dsimp only
      rw [parseDec_printDec h.score hsc, parseDec_printDec h.energy hen,
        parseDec_printDec h.identity hidt, parseDec_printDec h.similarity hsim,
        parseInt_printInt h.query_start, parseInt_printInt h.query_end,
        parseInt_printInt h.ref_start, parseInt_printInt h.ref_end,
        parseInt_printInt h.aln_length]

/-- Witness for C8 (amended): the concrete typed hit `exParsedHit` round
trips through printing, parsing and typed conversion, and a banner line in
front of it is ignored. -/
theorem parse_result_spec_witness :
    (parse_result [mkHitLine exParsedHit] = some [hitValues exParsedHit]
      ∧ toParsedHit (hitValues exParsedHit) = some exParsedHit)
  ∧ parse_result [("banner line").toList, mkHitLine exParsedHit] =
      some [hitValues exParsedHit] :=
  ⟨parse_result_spec.2 exParsedHit (by decide), by decide⟩

theorem splitGo_body (num : Nat) (body rest : List Line) (c : Nat)
    (parts : List (List Line)) (acc : List Line) (hc : c < parts.length)
    (hbody : ∀ l ∈ body, startsWithGt l = false) :
    splitGo num (body ++ rest) (some c)
        (parts.set c (parts.getD c [] ++ acc)) =
      splitGo num rest (some c)
        (parts.set c (parts.getD c [] ++ (acc ++ body))) := by
  induction body generalizing acc with
  | nil => rw [List.nil_append, List.append_nil]
  | cons l body2 ih =>
    rw [List.cons_append, splitGo]
    have hl := hbody l (List.mem_cons_self l body2)
    rw [if_neg (by rw [hl]; simp)]
    dsimp only
    have hgetD : (parts.set c (parts.getD c [] ++ acc)).getD c [] =
        parts.getD c [] ++ acc := by
      rw [List.getD_eq_getElem?_getD, List.getElem?_set_self hc]
      rfl
    rw [hgetD, List.set_set, List.append_assoc _ acc [l]]
    have := ih (acc ++ [l]) (fun l2 h2 => hbody l2 (List.mem_cons_of_mem l h2))
    rw [this, List.append_assoc, List.singleton_append]

theorem splitGo_record (num : Nat) (r : List Line) (rest : List Line)
    (c : Nat) (parts : List (List Line)) (hwf : WFRecord r)
    (hc : (c + 1) % num < parts.length) :
    splitGo num (r ++ rest) (some c) parts =
      splitGo num rest (some ((c + 1) % num))
        (parts.set ((c + 1) % num)
          (parts.getD ((c + 1) % num) [] ++ r)) := by
  obtain ⟨h, t, hr, hh, ht⟩ := hwf
  subst hr
  rw [List.cons_append, splitGo, if_pos hh]
  dsimp only
  have hstep := splitGo_body num t rest ((c + 1) % num) parts [h] hc ht
  rw [List.singleton_append] at hstep
  exact hstep

theorem splitGo_record_first (num : Nat) (r : List Line) (rest : List Line)
    (parts : List (List Line)) (hwf : WFRecord r)
    (hc : 0 < parts.length) :
    splitGo num (r ++ rest) none parts =
      splitGo num rest (some 0)
        (parts.set 0 (parts.getD 0 [] ++ r)) := by
  obtain ⟨h, t, hr, hh, ht⟩ := hwf
  subst hr
  rw [List.cons_append, splitGo, if_pos hh]
  dsimp only
  have hstep := splitGo_body num t rest 0 parts [h] hc ht
  rw [List.singleton_append] at hstep
  exact hstep

theorem splitRecords_mod (num : Nat) (records : List (List Line))
    (i j : Nat) (parts : List (List Line)) (h : i % num = j % num) :
    splitRecords num i records parts = splitRecords num j records parts := by
  induction records generalizing i j parts with
  | nil => rfl
  | cons r rs ih =>
    rw [splitRecords, splitRecords, h]
    exact ih (i + 1) (j + 1) _
      (by rw [Nat.add_mod i 1 num, Nat.add_mod j 1 num, h])

theorem splitRecords_length (num : Nat) (records : List (List Line))
    (i : Nat) (parts : List (List Line)) :
    (splitRecords num i records parts).length = parts.length := by
  induction records generalizing i parts with
  | nil => rfl
  | cons r rs ih =>
    rw [splitRecords, ih, List.length_set]

theorem splitGo_records (num : Nat) (records : List (List Line)) (c : Nat)
    (parts : List (List Line)) (hwf : ∀ r ∈ records, WFRecord r)
    (hnum : 0 < num) (hlen : parts.length = num) :
    splitGo num records.flatten (some c) parts =
      some (splitRecords num (c + 1) records parts) := by
  induction records generalizing c parts with
  | nil => rfl
  | cons r rs ih =>
    rw [List.flatten_cons,
      splitGo_record num r rs.flatten c parts
        (hwf r (List.mem_cons_self r rs))
        (by rw [hlen]; exact Nat.mod_lt _ hnum),
      ih ((c + 1) % num) _
        (fun r2 h2 => hwf r2 (List.mem_cons_of_mem r h2))
        (by rw [List.length_set, hlen]),
      splitRecords]
    congr 1
    exact splitRecords_mod num rs ((c + 1) % num + 1) (c + 1 + 1) _
      (by rw [Nat.mod_add_mod])

theorem split_file_records (num : Nat) (records : List (List Line))
    (hnum : 0 < num) (hwf : ∀ r ∈ records, WFRecord r) :
    split_file num records.flatten =
      some (splitRecords num 0 records (List.replicate num [])) := by
  unfold split_file
  rw [if_neg (by omega)]
  cases records with
  | nil => rfl
  | cons r rs =>
    rw [List.flatten_cons,
      splitGo_record_first num r rs.flatten (List.replicate num [])
        (hwf r (List.mem_cons_self r rs)) (by simpa using hnum),
      splitGo_records num rs 0 _
        (fun r2 h2 => hwf r2 (List.mem_cons_of_mem r h2)) hnum
        (by rw [List.length_set]; exact List.length_replicate num []),
      splitRecords, Nat.zero_mod]

theorem splitRecords_getD (num : Nat) (records : List (List Line))
    (i : Nat) (parts : List (List Line)) (j : Nat) (hj : j < parts.length)
    (_hnum : 0 < num) (hlen : parts.length = num) :
    (splitRecords num i records parts).getD j [] =
      parts.getD j [] ++ specPartition num j i records := by
  induction records generalizing i parts with
  | nil => rw [splitRecords, specPartition, List.append_nil]
  | cons r rs ih =>
    rw [splitRecords, specPartition,
      ih (i + 1) _ (by rw [List.length_set]; exact hj)
        (by rw [List.length_set]; exact hlen)]
    by_cases hij : i % num = j
    · rw [if_pos hij, hij, List.getD_eq_getElem?_getD,
        List.getElem?_set_self hj, List.getD_eq_getElem?_getD]
      simp only [Option.getD_some]
      rw [List.append_assoc]
    · rw [if_neg hij, List.getD_eq_getElem?_getD, List.getElem?_set_ne hij,
        ← List.getD_eq_getElem?_getD, List.nil_append]

/-- C9: `_split_file` with `num ≥ 1` partitions, on an input consisting of
well-formed fasta records, assigns the `i`-th record (0-indexed) wholly to
partition `i mod num`, preserving the records' relative order inside each
partition; the function of the input is deterministic by construction, so
two runs on the same input and `num` produce identical partition
contents. -/
theorem split_file_round_robin (num : Nat) (records : List (List Line))
    (hnum : 0 < num) (hwf : ∀ r ∈ records, WFRecord r) :
    ∃ parts, split_file num records.flatten = some parts ∧
      parts.length = num ∧
      ∀ j, j < num → parts.getD j [] = specPartition num j 0 records := by
  refine ⟨splitRecords num 0 records (List.replicate num []),
    split_file_records num records hnum hwf, ?_, ?_⟩
  · rw [splitRecords_length]
    exact List.length_replicate num []
  · intro j hj
    rw [splitRecords_getD num records 0 _ j
      (by rw [List.length_replicate]; exact hj) hnum
      (List.length_replicate num [])]
    rw [List.getD_eq_getElem?_getD, List.getElem?_replicate, if_pos hj]
    rfl

/-- Witness for C9: splitting three records over two partitions sends
records 0 and 2 to partition 0 and record 1 to partition 1, in order. -/
theorem split_file_round_robin_witness :
    ∃ parts, split_file 2 exRecords.flatten = some parts ∧
      parts.length = 2 ∧
      ∀ j, j < 2 → parts.getD j [] = specPartition 2 j 0 exRecords :=
  split_file_round_robin 2 exRecords (by decide) (by
    intro r hr
    unfold exRecords at hr
    simp only [List.mem_cons, List.not_mem_nil, or_false] at hr
    rcases hr with h | h | h <;> subst h
    · exact ⟨">a".toList, ["x1".toList, "x2".toList], rfl, by decide, by decide⟩
    · exact ⟨">b".toList, ["y".toList], rfl, by decide, by decide⟩
    · exact ⟨">c".toList, ["z".toList], rfl, by decide, by decide⟩)

end Circmimi
